import Mathlib

/-!
Verification development for the `bjson` library: a path-addressable JSON
tree-mutation engine (`getElement`, `updateElement` with the Add/Set/Remove
tail state machine, `EscapeElement`/`UnescapeElement`, `Marshal`,
`MarshalWrite`, and the deep-copy isolation discipline).

The in-memory JSON value (`interface{}` holding `nil`, `bool`, `float64`,
`string`, `[]interface{}` or `map[string]interface{}`) is embedded as the
inductive type `Value`.  Numbers are embedded as integers: the library's own
specification restricts all numeric claims to integral numbers and declares
non-integral fidelity a non-goal, so the number domain of the model is `Int`.

The standard JSON text codec (`encoding/json`, `strconv`) is an external
collaborator of the library; it is modelled here by an executable
serializer (`ser`), parser (`parseJson`) and the quoting functions
(`goQuote`, `goUnquote`, `quoteToASCII`), faithful to the Go functions on
the value domain of the model.  Documented simplifications of the external
codec (all irrelevant to the texts this library actually produces):
HTML-escaping of `<`, `>`, `&` is off, characters at or above `0x20` are
treated as printable by the `strconv` quoters, and the parser accepts
exactly the whitespace-free canonical texts the codec itself emits.
-/

namespace BJ

/-! ## Characters and digits -/

def charCode (c : Char) : Nat := c.toNat

def isDigitB (c : Char) : Bool := 48 ≤ charCode c && charCode c ≤ 57

def digitChar (n : Nat) : Char := Char.ofNat (48 + n)

def hexDigitChar (n : Nat) : Char :=
  if n < 10 then Char.ofNat (48 + n) else Char.ofNat (87 + n)

def hexVal (c : Char) : Option Nat :=
  if 48 ≤ charCode c && charCode c ≤ 57 then some (charCode c - 48)
  else if 97 ≤ charCode c && charCode c ≤ 102 then some (charCode c - 87)
  else if 65 ≤ charCode c && charCode c ≤ 70 then some (charCode c - 55)
  else none

/-- Little-endian-free decimal rendering of a natural number, with explicit
fuel so that the definition is structurally recursive and kernel-computable. -/
def natCharsAux : Nat → Nat → List Char
  | 0, _ => []
  | f + 1, n => if n < 10 then [digitChar n] else natCharsAux f (n / 10) ++ [digitChar (n % 10)]

def natChars (n : Nat) : List Char := natCharsAux (n + 1) n

/-- Decimal rendering of an integer, as Go `strconv.FormatInt` base 10. -/
def intChars (n : Int) : List Char :=
  if n < 0 then '-' :: natChars n.natAbs else natChars n.toNat

def digitsVal (ds : List Char) : Nat := ds.foldl (fun a c => a * 10 + (charCode c - 48)) 0

def allDigits (ds : List Char) : Bool := ds.all isDigitB

/-- Longest digit run at the head of the input, and the rest. -/
def splitDigits : List Char → List Char × List Char
  | [] => ([], [])
  | c :: cs =>
    if isDigitB c then
      let (ds, r) := splitDigits cs
      (c :: ds, r)
    else ([], c :: cs)

/-- Model of Go `strconv.Atoi` (overflow of the machine `int` is not
modelled; the claims do not depend on it). -/
def atoi (s : String) : Option Int :=
  match s.data with
  | [] => none
  | '-' :: ds => if ds ≠ [] && allDigits ds then some (-(digitsVal ds : Int)) else none
  | '+' :: ds => if ds ≠ [] && allDigits ds then some (digitsVal ds) else none
  | ds => if allDigits ds then some (digitsVal ds) else none

/-- Lexicographic comparison of strings by code point, matching the byte
order Go's `sort.Strings` uses on UTF-8 keys. -/
def strLeB : List Char → List Char → Bool
  | [], _ => true
  | _ :: _, [] => false
  | c :: a, d :: b =>
    if charCode c < charCode d then true
    else if charCode d < charCode c then false
    else strLeB a b

/-! ## The JSON value model -/

inductive Value where
  | null
  | bool (b : Bool)
  | num (n : Int)
  | str (s : String)
  | arr (elems : List Value)
  | obj (fields : List (String × Value))

/-- Association-list lookup, the model of `parentObj[currentTarget]` reads. -/
def objLookup (fs : List (String × Value)) (k : String) : Option Value :=
  match fs with
  | [] => none
  | (k', v) :: fs => if k' = k then some v else objLookup fs k

/-- Association-list write, the model of `parentObj[currentTarget] = v`. -/
def objInsert (fs : List (String × Value)) (k : String) (v : Value) : List (String × Value) :=
  match fs with
  | [] => [(k, v)]
  | (k', v') :: fs => if k' = k then (k, v) :: fs else (k', v') :: objInsert fs k v

/-- Association-list delete, the model of `delete(parentObj, currentTarget)`. -/
def objErase (fs : List (String × Value)) (k : String) : List (String × Value) :=
  match fs with
  | [] => []
  | (k', v') :: fs => if k' = k then fs else (k', v') :: objErase fs k

/-- Go `%T` on the dynamic value, used by the top-level mutation error. -/
def goTypeName : Value → String
  | .null => "<nil>"
  | .bool _ => "bool"
  | .num _ => "float64"
  | .str _ => "string"
  | .arr _ => "[]interface {}"
  | .obj _ => "map[string]interface {}"

/-! ## Canonicalization (what a marshal/unmarshal round trip does to a value)

Go's `json.Marshal` writes object keys in sorted order, and `json.Unmarshal`
reads the pairs back into a fresh map (later duplicates overwriting earlier
ones, a case that cannot arise from a Go map but is resolved the same way
here).  `canon` is that normal form. -/

def fieldInsert (f : String × Value) : List (String × Value) → List (String × Value)
  | [] => [f]
  | g :: gs => if strLeB f.1.data g.1.data then f :: g :: gs else g :: fieldInsert f gs

def sortFields : List (String × Value) → List (String × Value)
  | [] => []
  | f :: fs => fieldInsert f (sortFields fs)

/-- Collapse adjacent equal keys, keeping the later pair (map semantics:
the last write wins).  Applied to key-sorted lists. -/
def dedupFields : List (String × Value) → List (String × Value)
  | [] => []
  | [f] => [f]
  | f :: g :: fs => if f.1 = g.1 then dedupFields (g :: fs) else f :: dedupFields (g :: fs)

mutual
def canon : Value → Value
  | .null => .null
  | .bool b => .bool b
  | .num n => .num n
  | .str s => .str s
  | .arr vs => .arr (canonList vs)
  | .obj fs => .obj (dedupFields (sortFields (canonFields fs)))

def canonList : List Value → List Value
  | [] => []
  | v :: vs => canon v :: canonList vs

def canonFields : List (String × Value) → List (String × Value)
  | [] => []
  | (k, v) :: fs => (k, canon v) :: canonFields fs
end

/-! ## Serializer (model of `json.Marshal` output text) -/

/-- JSON string-character escaping as Go `encoding/json` emits it (with
HTML escaping off): quote, backslash, the three short control escapes, and
`\u00XX` for the remaining control characters. -/
def escChar (c : Char) : List Char :=
  if c = '"' then ['\\', '"']
  else if c = '\\' then ['\\', '\\']
  else if c = '\n' then ['\\', 'n']
  else if c = '\r' then ['\\', 'r']
  else if c = '\t' then ['\\', 't']
  else if charCode c < 32 then
    ['\\', 'u', '0', '0', hexDigitChar (charCode c / 16), hexDigitChar (charCode c % 16)]
  else [c]

def escList (f : Char → List Char) : List Char → List Char
  | [] => []
  | c :: cs => f c ++ escList f cs

def lCurly : Char := Char.ofNat 123

def rCurly : Char := Char.ofNat 125

/-- The quoted JSON string literal for `s`, as `json.Marshal` of a Go string. -/
def jsonQuoteChars (s : List Char) : List Char := '"' :: escList escChar s ++ ['"']

/-- The characters of the `true` literal. -/
def trueChars : List Char := ['t', 'r', 'u', 'e']

mutual
/-- Compact JSON text of a value, fields written in the order they are held;
`json.Marshal` output is `serRaw` of the canonical form (`ser`). -/
def serRaw : Value → List Char
  | .null => ['n', 'u', 'l', 'l']
  | .bool true => trueChars
  | .bool false => ['f', 'a', 'l', 's', 'e']
  | .num n => intChars n
  | .str s => jsonQuoteChars s.data
  | .arr [] => ['[', ']']
  | .arr (v :: vs) => '[' :: (serRaw v ++ serArrRest vs) ++ [']']
  | .obj [] => [lCurly, rCurly]
  | .obj (f :: fs) => lCurly :: (serField f ++ serObjRest fs) ++ [rCurly]

def serArrRest : List Value → List Char
  | [] => []
  | v :: vs => ',' :: serRaw v ++ serArrRest vs

def serField : String × Value → List Char
  | (k, v) => jsonQuoteChars k.data ++ ':' :: serRaw v

def serObjRest : List (String × Value) → List Char
  | [] => []
  | f :: fs => ',' :: serField f ++ serObjRest fs
end

/-- Model of `json.Marshal`: canonical compact JSON text of a value. -/
def ser (v : Value) : String := ⟨serRaw (canon v)⟩

/-! ## Parser (model of `json.Unmarshal` into `interface{}`)

The parser consumes exactly the whitespace-free canonical texts produced by
the serializer and the quoters above, which are the only texts this library
ever feeds back into the codec.  Values outside the model's domain
(non-integral numbers) are rejected. -/

/-- Parse the body of a JSON string literal (after the opening quote),
returning its characters and the input after the closing quote.  Escapes in
the surrogate range are rejected (the model covers the basic planes the
emitted texts use). -/
def parseStrBody : List Char → Option (List Char × List Char)
  | [] => none
  | c :: cs =>
    if c = '"' then some ([], cs)
    else if c = '\\' then
      match cs with
      | [] => none
      | e :: cs2 =>
        if e = '"' then (parseStrBody cs2).map (fun p => ('"' :: p.1, p.2))
        else if e = '\\' then (parseStrBody cs2).map (fun p => ('\\' :: p.1, p.2))
        else if e = '/' then (parseStrBody cs2).map (fun p => ('/' :: p.1, p.2))
        else if e = 'n' then (parseStrBody cs2).map (fun p => ('\n' :: p.1, p.2))
        else if e = 'r' then (parseStrBody cs2).map (fun p => ('\r' :: p.1, p.2))
        else if e = 't' then (parseStrBody cs2).map (fun p => ('\t' :: p.1, p.2))
        else if e = 'b' then (parseStrBody cs2).map (fun p => (Char.ofNat 8 :: p.1, p.2))
        else if e = 'f' then (parseStrBody cs2).map (fun p => (Char.ofNat 12 :: p.1, p.2))
        else if e = 'u' then
          match cs2 with
          | h1 :: h2 :: h3 :: h4 :: cs3 =>
            match hexVal h1, hexVal h2, hexVal h3, hexVal h4 with
            | some a, some b, some c1, some d =>
              let n := ((a * 16 + b) * 16 + c1) * 16 + d
              if n < 0xd800 then (parseStrBody cs3).map (fun p => (Char.ofNat n :: p.1, p.2))
              else none
            | _, _, _, _ => none
          | _ => none
        else none
    else (parseStrBody cs).map (fun p => (c :: p.1, p.2))

/-- Strip an expected literal from the head of the input. -/
def stripLit : List Char → List Char → Option (List Char)
  | [], cs => some cs
  | _ :: _, [] => none
  | p :: ps, c :: cs => if p = c then stripLit ps cs else none

/-- Parse a negated number after the minus sign (at least one digit). -/
def parseNumNeg : List Char → Option (Value × List Char)
  | [] => none
  | d :: cs =>
    if isDigitB d then
      some (.num (-(digitsVal (splitDigits (d :: cs)).1 : Int)), (splitDigits (d :: cs)).2)
    else none

mutual
/-- Parse one JSON value from the head of the input. -/
def parseV : Nat → List Char → Option (Value × List Char)
  | 0, _ => none
  | f + 1, cs =>
    match cs with
    | [] => none
    | c :: cs' =>
      if c = 'n' then (stripLit ['u', 'l', 'l'] cs').map (fun r => (.null, r))
      else if c = 't' then (stripLit ['r', 'u', 'e'] cs').map (fun r => (.bool true, r))
      else if c = 'f' then (stripLit ['a', 'l', 's', 'e'] cs').map (fun r => (.bool false, r))
      else if c = '"' then (parseStrBody cs').map (fun p => (.str ⟨p.1⟩, p.2))
      else if c = '[' then
        if cs'.head? = some ']' then some (.arr [], cs'.tail)
        else
          (parseV f cs').bind fun p =>
            (parseArrRest f p.2).map fun q => (.arr (p.1 :: q.1), q.2)
      else if c = lCurly then
        if cs'.head? = some rCurly then some (.obj [], cs'.tail)
        else
          (parsePairs f cs').map fun q =>
            (.obj (q.1.foldl (fun m p => objInsert m p.1 p.2) []), q.2)
      else if isDigitB c then
        some (.num (digitsVal (splitDigits (c :: cs')).1), (splitDigits (c :: cs')).2)
      else if c = '-' then parseNumNeg cs'
      else none

/-- Parse the tail of an array after its first element: `(',' value)* ']'`. -/
def parseArrRest : Nat → List Char → Option (List Value × List Char)
  | 0, _ => none
  | f + 1, cs =>
    if cs.head? = some ']' then some ([], cs.tail)
    else if cs.head? = some ',' then
      (parseV f cs.tail).bind fun p =>
        (parseArrRest f p.2).map fun q => (p.1 :: q.1, q.2)
    else none

/-- Parse `pair (',' pair)* closing-brace` (the inside of a non-empty object). -/
def parsePairs : Nat → List Char → Option (List (String × Value) × List Char)
  | 0, _ => none
  | f + 1, cs =>
    if cs.head? = some '"' then
      (parseStrBody cs.tail).bind fun kp =>
        if kp.2.head? = some ':' then
          (parseV f kp.2.tail).bind fun vp =>
            if vp.2.head? = some rCurly then some ([(⟨kp.1⟩, vp.1)], vp.2.tail)
            else if vp.2.head? = some ',' then
              (parsePairs f vp.2.tail).map fun q => ((⟨kp.1⟩, vp.1) :: q.1, q.2)
            else none
        else none
    else none
end

/-- Model of `json.Unmarshal` of a whole text into `interface{}`. -/
def parseJson (s : String) : Option Value :=
  match parseV (s.data.length + 1) s.data with
  | some (v, []) => some v
  | _ => none

/-! ## The `strconv` quoting collaborators -/

/-- One character as Go `strconv.Quote` renders it.  ASCII is rendered
exactly: the printable characters `0x20`..`0x7e` stay raw, the short escapes
`\\a \\b \\t \\n \\v \\f \\r` cover their controls, and every remaining
character below `0x80` — the other controls and DEL (`0x7f`) — becomes a
`\\xXX` escape, which `json.Unmarshal` rejects.  A basic-plane character at
or above `0x80` is rendered raw; Go escapes the non-printable ones as
`\\uXXXX`, which the unmarshal that follows every quote in this program
turns back into the same character, so the raw rendering is observationally
equal there.  A character above `0xffff` is rendered raw, faithful only when
Go considers it printable (`unicode.IsPrint` on the supplementary planes
needs the Unicode tables); the escape round trip is therefore proved for
serializations of basic-plane characters only (`quoteSafeB`). -/
def goQuoteChar (c : Char) : List Char :=
  if c = '"' then ['\\', '"']
  else if c = '\\' then ['\\', '\\']
  else if c = '\n' then ['\\', 'n']
  else if c = '\r' then ['\\', 'r']
  else if c = '\t' then ['\\', 't']
  else if charCode c = 7 then ['\\', 'a']
  else if charCode c = 8 then ['\\', 'b']
  else if charCode c = 11 then ['\\', 'v']
  else if charCode c = 12 then ['\\', 'f']
  else if charCode c < 32 ∨ charCode c = 127 then
    ['\\', 'x', hexDigitChar (charCode c / 16), hexDigitChar (charCode c % 16)]
  else [c]

/-- Model of Go `strconv.Quote`. -/
def goQuote (s : String) : String := ⟨'"' :: escList goQuoteChar s.data ++ ['"']⟩

/-- The characters whose `strconv.Quote` rendering survives `json.Unmarshal`
unchanged: at or above the space, not DEL, and inside the basic plane
(`goQuoteChar` renders exactly these raw). -/
def quoteSafeB (l : List Char) : Bool :=
  l.all (fun c => 32 ≤ charCode c && charCode c ≠ 127 && charCode c < 65536)

/-- One character as Go `strconv.QuoteToASCII` renders it (additionally
escaping every non-ASCII character as `\uXXXX`; code points above `0xffff`,
which Go writes as `\UXXXXXXXX`, do not occur in the concrete inputs below
and are rendered here with the same four-digit form of their low bits). -/
def quoteToASCIIChar (c : Char) : List Char :=
  if c = '"' then ['\\', '"']
  else if c = '\\' then ['\\', '\\']
  else if c = '\n' then ['\\', 'n']
  else if c = '\r' then ['\\', 'r']
  else if c = '\t' then ['\\', 't']
  else if charCode c < 32 then
    ['\\', 'x', hexDigitChar (charCode c / 16), hexDigitChar (charCode c % 16)]
  else if charCode c < 127 then [c]
  else
    ['\\', 'u', hexDigitChar (charCode c / 4096 % 16), hexDigitChar (charCode c / 256 % 16),
      hexDigitChar (charCode c / 16 % 16), hexDigitChar (charCode c % 16)]

/-- Model of Go `strconv.QuoteToASCII`. -/
def quoteToASCII (s : String) : String := ⟨'"' :: escList quoteToASCIIChar s.data ++ ['"']⟩

/-- Read two hex digits. -/
def readHex2 : List Char → Option (Nat × List Char)
  | h1 :: h2 :: cs =>
    match hexVal h1, hexVal h2 with
    | some a, some b => some (a * 16 + b, cs)
    | _, _ => none
  | _ => none

/-- Read four hex digits. -/
def readHex4 : List Char → Option (Nat × List Char)
  | h1 :: h2 :: h3 :: h4 :: cs =>
    match hexVal h1, hexVal h2, hexVal h3, hexVal h4 with
    | some a, some b, some c, some d => some (((a * 16 + b) * 16 + c) * 16 + d, cs)
    | _, _, _, _ => none
  | _ => none

/-- Scan the body of a Go double-quoted string literal: the decoded
characters and the input after the closing quote (Go `strconv.Unquote`
additionally rejects trailing input, checked by the wrapper below).  The
escapes covered are the ones the quoters above emit; the remaining Go
escape forms are rejected as not arising here.  A raw newline is rejected
as in Go. -/
def goUnquoteBody : Nat → List Char → Option (List Char × List Char)
  | 0, _ => none
  | f + 1, cs =>
    match cs with
    | [] => none
    | c :: cs' =>
      if c = '"' then some ([], cs')
      else if c = '\n' then none
      else if c = '\\' then
        if cs'.head? = some '"' then
          (goUnquoteBody f cs'.tail).map fun p => ('"' :: p.1, p.2)
        else if cs'.head? = some '\\' then
          (goUnquoteBody f cs'.tail).map fun p => ('\\' :: p.1, p.2)
        else if cs'.head? = some 'n' then
          (goUnquoteBody f cs'.tail).map fun p => ('\n' :: p.1, p.2)
        else if cs'.head? = some 'r' then
          (goUnquoteBody f cs'.tail).map fun p => ('\r' :: p.1, p.2)
        else if cs'.head? = some 't' then
          (goUnquoteBody f cs'.tail).map fun p => ('\t' :: p.1, p.2)
        else if cs'.head? = some 'x' then
          (readHex2 cs'.tail).bind fun q =>
            (goUnquoteBody f q.2).map fun p => (Char.ofNat q.1 :: p.1, p.2)
        else if cs'.head? = some 'u' then
          (readHex4 cs'.tail).bind fun q =>
            if q.1 < 0xd800 then
              (goUnquoteBody f q.2).map fun p => (Char.ofNat q.1 :: p.1, p.2)
            else none
        else none
      else (goUnquoteBody f cs').map fun p => (c :: p.1, p.2)

/-- Model of Go `strconv.Unquote` on double-quoted input. -/
def goUnquote (s : String) : Option String :=
  match s.data with
  | '"' :: cs =>
    match goUnquoteBody (cs.length + 1) cs with
    | some (l, []) => some ⟨l⟩
    | _ => none
  | _ => none

/-! ## Errors

Every `fmt.Errorf` site of the library gets one constructor carrying its
format arguments; `GoErr.message` renders the exact Go message text. -/

inductive GoErr where
  | elemNotFound (loc : String)
  | elemNotValidIndex (loc : String)
  | keyNotFound (loc : String)
  | notValidIndexInt (loc : String) (atoiMsg : String)
  | invalidIndex (loc : String)
  | elemNotFoundAt (target : String) (loc : String)
  | alreadyExists (loc : String)
  | cannotUpdate (loc : String)
  | invalidOperation (typeName : String)
  | notQuoted (valueStr : String)
  | unmarshalErr (input : String)

/-- The message of a failed `strconv.Atoi` as `%v` renders it. -/
def atoiErrMsg (t : String) : String :=
  "strconv.Atoi: parsing " ++ quoteToASCII t ++ ": invalid syntax"

def GoErr.message : GoErr → String
  | .elemNotFound loc => "element " ++ loc ++ " is not found"
  | .elemNotValidIndex loc => "element " ++ loc ++ " is not valid index for JSON array"
  | .keyNotFound loc => "key at " ++ loc ++ " is not found"
  | .notValidIndexInt loc m =>
    "element " ++ loc ++ " is not valid index (int) for JSON array. " ++ m
  | .invalidIndex loc => "invalid index for json array at " ++ loc
  | .elemNotFoundAt t loc => "element '" ++ t ++ "' is not found at '" ++ loc ++ "'"
  | .alreadyExists loc => "key at " ++ loc ++ " is already exists"
  | .cannotUpdate loc => "cannot update element at: " ++ loc
  | .invalidOperation tn => "invalid operation for " ++ tn
  | .notQuoted v => "element value is not quoted. value: " ++ v
  | .unmarshalErr input => "json unmarshal failed on: " ++ input

/-- The location argument an error carries (empty for the errors that carry
none). -/
def GoErr.location : GoErr → String
  | .elemNotFound loc => loc
  | .elemNotValidIndex loc => loc
  | .keyNotFound loc => loc
  | .notValidIndexInt loc _ => loc
  | .invalidIndex loc => loc
  | .elemNotFoundAt _ loc => loc
  | .alreadyExists loc => loc
  | .cannotUpdate loc => loc
  | .invalidOperation _ => ""
  | .notQuoted _ => ""
  | .unmarshalErr _ => ""

/-! ## Navigator (`getElement` and its two step functions) -/

/-- `JSONPath.String`: note it renders only `path[0]`, the first segment. -/
def pathString (path : List String) : String :=
  "[" ++ quoteToASCII (path.headD "") ++ "]"

def getElementFromMap (obj : List (String × Value)) (target location : String) :
    Except GoErr Value :=
  match objLookup obj target with
  | some selector => .ok selector
  | none => .error (.elemNotFound location)

def getElementFromArray (arr : List Value) (target location : String) : Except GoErr Value :=
  match atoi target with
  | none => .error (.elemNotValidIndex location)
  | some idx =>
    if idx < 0 ∨ (arr.length : Int) ≤ idx then .error (.elemNotValidIndex location)
    else .ok (arr.getD idx.toNat .null)

/-- The loop body of `getElement`, with the accumulated `path`. -/
def getElementLoop (selector : Value) (targets path : List String) : Except GoErr Value :=
  match targets with
  | [] => .ok selector
  | target :: ts =>
    let path := path ++ [target]
    match selector with
    | .obj fs => (getElementFromMap fs target (pathString path)).bind (getElementLoop · ts path)
    | .arr l => (getElementFromArray l target (pathString path)).bind (getElementLoop · ts path)
    | _ => .error (.elemNotFound (pathString path))

/-- Model of `getElement`: the value the returned handle wraps (the handle
itself shares that value with the tree; sharing is studied in the heap
model below). -/
def getElement (je : Value) (targets : List String) : Except GoErr Value :=
  getElementLoop je targets []

/-! ## Mutator -/

inductive UpdateOption where
  | add
  | set
  | remove
deriving DecidableEq

/-- Outcome of a mutation call: `ok` carries the new tree; `err` carries the
error together with the tree as the caller observes it after the failed call
(Go's reference semantics can leave in-place writes behind, tracked here
explicitly); `panicked` marks a Go runtime panic. -/
inductive URes where
  | ok (v : Value)
  | err (e : GoErr) (tree : Value)
  | panicked

/-- Model of `updateTailMapElement`.  `child` is `parentObj[currentTarget]`
(Go's `nil` for an absent key is the model's `null`), `isExist` the lookup's
second result. -/
def updateTailMapElement (option : UpdateOption) (parentObj : List (String × Value))
    (value : Value) (currentTarget location : String) (child : Value) (isExist : Bool) : URes :=
  -- the code after the append special case, shared by both match arms below
  let fallthru : URes :=
    if isExist && option == .add then .err (.alreadyExists location) (.obj parentObj)
    else if option == .remove then .ok (.obj (objErase parentObj currentTarget))
    else .ok (.obj (objInsert parentObj currentTarget value))
  match child with
  | .arr a =>
    -- `if arr, ok := child.([]interface{}); (add||set) && ok { if _, ok := parentObj[t]; ok && add`
    if (option == .add || option == .set) && (isExist && option == .add) then
      .ok (.obj (objInsert parentObj currentTarget (.arr (a ++ [value]))))
    else fallthru
  | _ => fallthru

/-- Model of `updateTailArrayElement`; `idx` is already in `[0, length)`
when this is reached (the negative case panics earlier, see below). -/
def updateTailArrayElement (option : UpdateOption) (parentObj : List Value) (value : Value)
    (idx : Nat) (location : String) : URes :=
  let child := parentObj.getD idx .null
  -- the code after the `add` special case, shared by both match arms below
  let fallthru : URes :=
    if option == .set then .ok (.arr (parentObj.set idx value))
    else if option == .remove then
      -- `append(parentObj[:idx], parentObj[idx+1:]...)`
      .ok (.arr (parentObj.take idx ++ parentObj.drop (idx + 1)))
    else .err (.cannotUpdate location) (.arr parentObj)
  match child with
  | .arr a =>
    if option == .add then .ok (.arr (parentObj.set idx (.arr (a ++ [value]))))
    else fallthru
  | _ => fallthru

/-- Model of `recursiveUpdateElement`.  The two `.panicked` results in the
array branch model Go runtime panics: indexing `parentObj[idx]` with a
negative `idx` (the guard checks only `len == 0 || idx >= len`), and
indexing `remainingTargets[0]` on an empty slice (unreachable from
`updateElement`, which always appends the dummy segment).  On a child
error the array branch still executes `parentObj[idx] = nil`: Go's
multi-assignment stores the returned `nil` before `err` is inspected. -/
def recursiveUpdateElement (option : UpdateOption) (parent value : Value)
    (currentTarget location : String) (remainingTargets : List String) : URes :=
  let isTail := remainingTargets.length == 1
  match parent with
  | .obj parentObj =>
    let location := location ++ "[\"" ++ currentTarget ++ "\"]"
    let child? := objLookup parentObj currentTarget
    if !child?.isSome && (option == .set || option == .remove) then
      .err (.keyNotFound location) (.obj parentObj)
    else if isTail then
      updateTailMapElement option parentObj value currentTarget location
        (child?.getD .null) child?.isSome
    else
      match remainingTargets with
      | [] => .panicked
      | r0 :: rs =>
        match recursiveUpdateElement option (child?.getD .null) value r0 location rs with
        | .ok updatedChild => .ok (.obj (objInsert parentObj currentTarget updatedChild))
        | .err e d =>
          -- no map write happens; the map retains its reference to the
          -- (possibly in-place damaged) child when the key exists
          .err e (.obj (if child?.isSome then objInsert parentObj currentTarget d else parentObj))
        | .panicked => .panicked
  | .arr parentObj =>
    let location := location ++ "[" ++ currentTarget ++ "]"
    match atoi currentTarget with
    | none => .err (.notValidIndexInt location (atoiErrMsg currentTarget)) (.arr parentObj)
    | some idx =>
      if parentObj.length = 0 ∨ (parentObj.length : Int) ≤ idx then
        .err (.invalidIndex location) (.arr parentObj)
      else if idx < 0 then .panicked
      else if isTail then
        updateTailArrayElement option parentObj value idx.toNat location
      else
        match remainingTargets with
        | [] => .panicked
        | r0 :: rs =>
          match recursiveUpdateElement option (parentObj.getD idx.toNat .null) value r0
              location rs with
          | .ok c => .ok (.arr (parentObj.set idx.toNat c))
          | .err e _ => .err e (.arr (parentObj.set idx.toNat .null))
          | .panicked => .panicked
  | _ => .err (.elemNotFoundAt currentTarget location) parent

/-- Model of `updateTopLevelElement`. -/
def updateTopLevelElement (je : Value) (option : UpdateOption) (value : Value) : URes :=
  match je with
  | .arr parentObj =>
    if option == .add then .ok (.arr (parentObj ++ [value]))
    else if option == .set then .ok value
    else .err (.invalidOperation (goTypeName je)) je
  | _ =>
    if option == .set then .ok value
    else .err (.invalidOperation (goTypeName je)) je

/-- Model of `deepCopy` on the value domain (the `[]byte` and handle input
cases of the Go function do not arise there): marshal then unmarshal. -/
def deepCopy (value : Value) : Except GoErr Value :=
  match parseJson (ser value) with
  | some ret => .ok ret
  | none => .error (.unmarshalErr (ser value))

/-- Model of `updateElement`.  Go skips the copy for a `nil` value (Remove);
copying `null` gives `null` back, so the copy is applied unconditionally. -/
def updateElement (je : Value) (option : UpdateOption) (value : Value)
    (targets : List String) : URes :=
  match deepCopy value with
  | .error e => .err e je
  | .ok value =>
    match targets with
    | [] => updateTopLevelElement je option value
    | t0 :: rest =>
      -- the dummy element appended by the code makes `remainingTargets`
      -- one longer than the real tail everywhere below
      recursiveUpdateElement option je value t0 "JSON" (rest ++ [""])

def AddElement (je : Value) (value : Value) (targets : List String) : URes :=
  updateElement je .add value targets

def SetElement (je : Value) (value : Value) (targets : List String) : URes :=
  updateElement je .set value targets

def RemoveElement (je : Value) (targets : List String) : URes :=
  updateElement je .remove .null targets

/-! ## Escape / Unescape -/

/-- Model of `EscapeElement`; the result is the tree after the call. -/
def EscapeElement (je : Value) (targets : List String) : URes :=
  match getElement je targets with
  | .error e => .err e je
  | .ok element =>
    let elementStr := ser element
    if elementStr = "\"\"" then .ok je
    else
      let quotedValue := goQuote elementStr
      match parseJson quotedValue with
      | none => .err (.unmarshalErr quotedValue) je
      | some nVal => SetElement je nVal targets

/-- Model of `UnescapeElement`; the result is the tree after the call. -/
def UnescapeElement (je : Value) (targets : List String) : URes :=
  match getElement je targets with
  | .error e => .err e je
  | .ok element =>
    let elementStr := ser element
    if elementStr = "\"\"" then .ok je
    else
      match goUnquote elementStr with
      | none => .err (.notQuoted (ser element)) je
      | some unquotedValue =>
        match parseJson unquotedValue with
        | none => .err (.unmarshalErr unquotedValue) je
        | some nVal => SetElement je nVal targets

/-! ## Marshal -/

def tabs : Nat → List Char
  | 0 => []
  | n + 1 => '\t' :: tabs n

mutual
/-- Compact-order indented JSON text, as `json.MarshalIndent(v, "", "\t")`
lays it out (`depth` tabs on the closing line). -/
def serIndentRaw (depth : Nat) : Value → List Char
  | .arr [] => ['[', ']']
  | .arr (v :: vs) =>
    '[' :: '\n' :: tabs (depth + 1) ++ serIndentRaw (depth + 1) v ++
      serIndentArrRest (depth + 1) vs ++ '\n' :: tabs depth ++ [']']
  | .obj [] => [lCurly, rCurly]
  | .obj (f :: fs) =>
    lCurly :: '\n' :: tabs (depth + 1) ++ serIndentField (depth + 1) f ++
      serIndentObjRest (depth + 1) fs ++ '\n' :: tabs depth ++ [rCurly]
  | v => serRaw v

def serIndentArrRest (depth : Nat) : List Value → List Char
  | [] => []
  | v :: vs => ',' :: '\n' :: tabs depth ++ serIndentRaw depth v ++ serIndentArrRest depth vs

def serIndentField (depth : Nat) : String × Value → List Char
  | (k, v) => jsonQuoteChars k.data ++ ':' :: ' ' :: serIndentRaw depth v

def serIndentObjRest (depth : Nat) : List (String × Value) → List Char
  | [] => []
  | f :: fs => ',' :: '\n' :: tabs depth ++ serIndentField depth f ++ serIndentObjRest depth fs
end

/-- Model of `json.MarshalIndent(v, "", "\t")`. -/
def serIndent (v : Value) : String := ⟨serIndentRaw 0 (canon v)⟩

/-- Model of `Marshal`: resolve the targets, then serialize. -/
def Marshal (je : Value) (isPretty : Bool) (targets : List String) : Except GoErr String :=
  match getElement je targets with
  | .error e => .error e
  | .ok sel => .ok (if isPretty then serIndent sel else ser sel)

/-- Model of `MarshalWrite`: the bytes written to `path` (file I/O is the
boundary; the written content is the observable).  The body calls
`je.Marshal(isPretty)` with no targets. -/
def MarshalWrite (je : Value) (path : String) (isPretty : Bool)
    (targets : List String) : Except GoErr String :=
  Marshal je isPretty []

/-- Model of `String()`: `Marshal(false)` with errors flattened to `""`. -/
def ValueString (je : Value) : String :=
  match Marshal je false [] with
  | .ok s => s
  | .error _ => ""

/-! ## Derived specification-side functions

These are the vocabulary of the theorems below: the success projection of
the navigator, the functional path update a successful mutation amounts to,
and the location strings the mutator accumulates. -/

/-- Resolution of a path against a tree (the success behavior of
`getElement`): key lookup on objects, bounds-checked index on arrays. -/
def navigate : Value → List String → Option Value
  | v, [] => some v
  | .obj fs, t :: ts =>
    match objLookup fs t with
    | some c => navigate c ts
    | none => none
  | .arr l, t :: ts =>
    match atoi t with
    | some i => if i < 0 ∨ (l.length : Int) ≤ i then none else navigate (l.getD i.toNat .null) ts
    | none => none
  | _, _ :: _ => none

/-- The array index a segment denotes (junk `0` when it does not parse;
used only under hypotheses that make it meaningful). -/
def atoiIdx (t : String) : Nat := ((atoi t).getD 0).toNat

/-- The child a traversal step descends into (junk `null` when absent). -/
def childD : Value → String → Value
  | .obj fs, t => (objLookup fs t).getD .null
  | .arr l, t => l.getD (atoiIdx t) .null
  | _, _ => .null

/-- Replace the sub-value at a path (total; junk outside resolvable paths). -/
def setSubN : Value → List String → Value → Value
  | _, [], w => w
  | .obj fs, t :: ts, w => .obj (objInsert fs t (setSubN (childD (.obj fs) t) ts w))
  | .arr l, t :: ts, w => .arr (l.set (atoiIdx t) (setSubN (childD (.arr l) t) ts w))
  | v, _ :: _, _ => v

/-- `recursiveUpdateElement` as invoked on a whole target list (the code
appends the dummy segment and splits off the first target). -/
def recUpdateOn (option : UpdateOption) (parent value : Value) (loc : String) :
    List String → URes
  | [] => .ok parent
  | t :: ts => recursiveUpdateElement option parent value t loc (ts ++ [""])

/-- Rebuild the outcome of an update of the sub-tree at `p` into an outcome
for the whole tree, the way the recursive calls of `recursiveUpdateElement`
wrap their child results: successful children are written back, a failed
child of an object keeps the (damaged) child reference, a failed child of
an array gets the `nil` of Go's multi-assignment. -/
def liftDamage : Value → List String → URes → URes
  | _, [], r => r
  | .obj fs, t :: ts, r =>
    match liftDamage (childD (.obj fs) t) ts r with
    | .ok c' => .ok (.obj (objInsert fs t c'))
    | .err e d => .err e (.obj (if (objLookup fs t).isSome then objInsert fs t d else fs))
    | .panicked => .panicked
  | .arr l, t :: ts, r =>
    match liftDamage (childD (.arr l) t) ts r with
    | .ok c' => .ok (.arr (l.set (atoiIdx t) c'))
    | .err e _ => .err e (.arr (l.set (atoiIdx t) .null))
    | .panicked => .panicked
  | _, _ :: _, _ => .panicked

/-- The tree a failed update leaves behind, as seen from the root: objects
on the path keep their (possibly damaged) children, the first array on the
path has its element overwritten with `null`. -/
def damageSubN : Value → List String → Value → Value
  | _, [], d => d
  | .obj fs, t :: ts, d =>
    .obj (if (objLookup fs t).isSome then objInsert fs t (damageSubN (childD (.obj fs) t) ts d)
      else fs)
  | .arr l, t :: ts, _ => .arr (l.set (atoiIdx t) .null)
  | v, _ :: _, _ => v

/-- How `recursiveUpdateElement` renders one traversal step in `location`. -/
def stepLoc : Value → String → String
  | .obj _, t => "[\"" ++ t ++ "\"]"
  | .arr _, t => "[" ++ t ++ "]"
  | _, _ => ""

/-- The rendered location of a whole traversed prefix. -/
def pathLoc : Value → List String → String
  | _, [] => ""
  | v, t :: ts => stepLoc v t ++ pathLoc (childD v t) ts

/-- No array container is entered along the path (traversal through
objects only; a scalar stops the walk). -/
def objOnlyPath : Value → List String → Bool
  | _, [] => true
  | .obj fs, t :: ts => objOnlyPath (childD (.obj fs) t) ts
  | .arr _, _ :: _ => false
  | _, _ :: _ => true

/-- The input does not begin with a decimal digit (the boundary condition
under which a serialized number can be parsed back unambiguously). -/
def noDigitHeadB : List Char → Bool
  | [] => true
  | c :: _ => !isDigitB c

/-- Every character is at or above `0x20` (no control characters). -/
def noCtl (l : List Char) : Bool := l.all (fun c => 32 ≤ charCode c)

def keyNotMem (k : String) : List (String × Value) → Bool
  | [] => true
  | (k', _) :: fs => !(k' = k : Bool) && keyNotMem k fs

def keysDistinctB : List (String × Value) → Bool
  | [] => true
  | (k, _) :: fs => keyNotMem k fs && keysDistinctB fs

def keysSortedB : List (String × Value) → Bool
  | [] => true
  | [_] => true
  | f :: g :: fs => strLeB f.1.data g.1.data && keysSortedB (g :: fs)

mutual
/-- The value is in the normal form `canon` produces: object fields sorted
with distinct keys, recursively. -/
def CanonB : Value → Bool
  | .null => true
  | .bool _ => true
  | .num _ => true
  | .str _ => true
  | .arr vs => CanonLB vs
  | .obj fs => keysSortedB fs && keysDistinctB fs && CanonFB fs

def CanonLB : List Value → Bool
  | [] => true
  | v :: vs => CanonB v && CanonLB vs

def CanonFB : List (String × Value) → Bool
  | [] => true
  | (_, v) :: fs => CanonB v && CanonFB fs
end

mutual
/-- Structural size, a lower bound for the parser fuel. -/
def sizeW : Value → Nat
  | .null => 1
  | .bool _ => 1
  | .num _ => 1
  | .str _ => 1
  | .arr vs => 1 + sizeWL vs
  | .obj fs => 1 + sizeWF fs

def sizeWL : List Value → Nat
  | [] => 0
  | v :: vs => 1 + sizeW v + sizeWL vs

def sizeWF : List (String × Value) → Nat
  | [] => 0
  | (_, v) :: fs => 1 + sizeW v + sizeWF fs
end

/-- Prefix test on character lists. -/
def leadsWith : List Char → List Char → Bool
  | [], _ => true
  | _ :: _, [] => false
  | p :: ps, c :: cs => (p = c : Bool) && leadsWith ps cs

/-- Substring test on character lists. -/
def hasSub (pat : List Char) : List Char → Bool
  | [] => pat.isEmpty
  | c :: cs => leadsWith pat (c :: cs) || hasSub pat cs

/-! ## Heap model

Go maps and slices are reference types; `getElement` wraps the selected
node in `&bjson{value: selector}` without copying, so the returned handle
shares structure with the tree.  To make that sharing expressible, the same
functions are modelled once more over an explicit heap: containers live in
numbered cells, values reference them by address. -/

inductive HVal where
  | null
  | bool (b : Bool)
  | num (n : Int)
  | str (s : String)
  | ref (addr : Nat)
deriving DecidableEq

inductive HCell where
  | obj (fields : List (String × HVal))
  | arr (elems : List HVal)
deriving DecidableEq

abbrev Heap := List HCell

def hObjLookup (fs : List (String × HVal)) (k : String) : Option HVal :=
  match fs with
  | [] => none
  | (k', v) :: fs => if k' = k then some v else hObjLookup fs k

def hObjInsert (fs : List (String × HVal)) (k : String) (v : HVal) : List (String × HVal) :=
  match fs with
  | [] => [(k, v)]
  | (k', v') :: fs => if k' = k then (k, v) :: fs else (k', v') :: hObjInsert fs k v

/-- One step of `getElement` over the heap: the stored child itself. -/
def hGetStep (h : Heap) (selector : HVal) (target : String) : Option HVal :=
  match selector with
  | .ref a =>
    match h.get? a with
    | some (.obj fs) => hObjLookup fs target
    | some (.arr l) =>
      match atoi target with
      | none => none
      | some i => if i < 0 ∨ (l.length : Int) ≤ i then none else l.get? i.toNat
    | none => none
  | _ => none

/-- `getElement` over the heap: returns the selected node itself — exactly
what `&bjson{value: selector}` wraps — performing no allocation. -/
def hGetElement (h : Heap) (root : HVal) : List String → Option HVal
  | [] => some root
  | t :: ts =>
    match hGetStep h root t with
    | some sel => hGetElement h sel ts
    | none => none

mutual
/-- Allocate fresh cells for a pure value entering the heap (the result of
`deepCopy` on an inserted value): returns the extended heap and the handle. -/
def hAlloc (h : Heap) : Value → Heap × HVal
  | .null => (h, .null)
  | .bool b => (h, .bool b)
  | .num n => (h, .num n)
  | .str s => (h, .str s)
  | .arr vs =>
    let (h1, l) := hAllocList h vs
    (h1 ++ [HCell.arr l], .ref h1.length)
  | .obj fs =>
    let (h1, l) := hAllocFields h fs
    (h1 ++ [HCell.obj l], .ref h1.length)

def hAllocList (h : Heap) : List Value → Heap × List HVal
  | [] => (h, [])
  | v :: vs =>
    let (h1, hv) := hAlloc h v
    let (h2, hvs) := hAllocList h1 vs
    (h2, hv :: hvs)

def hAllocFields (h : Heap) : List (String × Value) → Heap × List (String × HVal)
  | [] => (h, [])
  | (k, v) :: fs =>
    let (h1, hv) := hAlloc h v
    let (h2, hfs) := hAllocFields h1 fs
    (h2, (k, hv) :: hfs)
end

/-- Read a heap value back into a pure `Value` (with fuel against the
cycles a heap could in principle contain; the heaps built here are acyclic). -/
def hRead : Nat → Heap → HVal → Value
  | 0, _, _ => .null
  | fuel + 1, h, v =>
    match v with
    | .null => .null
    | .bool b => .bool b
    | .num n => .num n
    | .str s => .str s
    | .ref a =>
      match h.get? a with
      | some (.obj fs) => .obj (fs.map (fun f => (f.1, hRead fuel h f.2)))
      | some (.arr l) => .arr (l.map (hRead fuel h))
      | none => .null

def hWriteCell (h : Heap) (a : Nat) (c : HCell) : Heap := h.set a c

/-- Heap-threaded model of `recursiveUpdateElement` (error messages elided:
this model only serves the sharing claim).  In-place map and slice writes
become cell writes; the nil-store of Go's multi-assignment on a failed
array recursion is the `hWriteCell` in the error case. -/
def hRecUpdate (option : UpdateOption) (h : Heap) (parent value : HVal)
    (currentTarget : String) (remainingTargets : List String) : Heap × Option HVal :=
  let isTail := remainingTargets.length == 1
  match parent with
  | .ref a =>
    match h.get? a with
    | some (.obj parentObj) =>
      let child? := hObjLookup parentObj currentTarget
      if !child?.isSome && (option == .set || option == .remove) then (h, none)
      else if isTail then
        -- updateTailMapElement, writing through the cell
        match child? with
        | some (.ref ca) =>
          match h.get? ca, option with
          | some (.arr ar), .add =>
            (hWriteCell h ca (.arr (ar ++ [value])), some parent)
          | _, _ =>
            if child?.isSome && option == .add then (h, none)
            else if option == .remove then
              (hWriteCell h a (.obj (parentObj.filter (fun f => !(f.1 = currentTarget)))),
                some parent)
            else (hWriteCell h a (.obj (hObjInsert parentObj currentTarget value)), some parent)
        | _ =>
          if child?.isSome && option == .add then (h, none)
          else if option == .remove then
            (hWriteCell h a (.obj (parentObj.filter (fun f => !(f.1 = currentTarget)))),
              some parent)
          else (hWriteCell h a (.obj (hObjInsert parentObj currentTarget value)), some parent)
      else
        match remainingTargets with
        | [] => (h, none)
        | r0 :: rs =>
          match hRecUpdate option h (child?.getD .null) value r0 rs with
          | (h1, some updatedChild) =>
            (hWriteCell h1 a (.obj (hObjInsert parentObj currentTarget updatedChild)),
              some parent)
          | (h1, none) => (h1, none)
    | some (.arr parentObj) =>
      match atoi currentTarget with
      | none => (h, none)
      | some idx =>
        if parentObj.length = 0 ∨ (parentObj.length : Int) ≤ idx then (h, none)
        else if idx < 0 then (h, none)
        else if isTail then
          match parentObj.getD idx.toNat .null, option with
          | .ref ca, _ =>
            match h.get? ca, option with
            | some (.arr ar), .add => (hWriteCell h ca (.arr (ar ++ [value])), some parent)
            | _, .set => (hWriteCell h a (.arr (parentObj.set idx.toNat value)), some parent)
            | _, .remove =>
              (hWriteCell h a
                (.arr (parentObj.take idx.toNat ++ parentObj.drop (idx.toNat + 1))),
                some parent)
            | _, _ => (h, none)
          | _, .set => (hWriteCell h a (.arr (parentObj.set idx.toNat value)), some parent)
          | _, .remove =>
            (hWriteCell h a (.arr (parentObj.take idx.toNat ++ parentObj.drop (idx.toNat + 1))),
              some parent)
          | _, _ => (h, none)
        else
          match remainingTargets with
          | [] => (h, none)
          | r0 :: rs =>
            match hRecUpdate option h (parentObj.getD idx.toNat .null) value r0 rs with
            | (h1, some c) => (hWriteCell h1 a (.arr (parentObj.set idx.toNat c)), some parent)
            | (h1, none) =>
              -- Go still stores the returned nil into the slice element
              (hWriteCell h1 a (.arr (parentObj.set idx.toNat .null)), none)
    | none => (h, none)
  | _ => (h, none)

/-- Heap-threaded model of `SetElement` (via `updateElement`): the copied
new value is allocated fresh, then the recursive update runs. -/
def hSetElement (h : Heap) (root : HVal) (value : Value) (targets : List String) :
    Heap × Option HVal :=
  match deepCopy value with
  | .error _ => (h, none)
  | .ok value =>
    let (h1, hv) := hAlloc h value
    match targets with
    | [] => (h1, some hv)
    | t0 :: rest =>
      match hRecUpdate .set h1 root hv t0 (rest ++ [""]) with
      | (h2, some nValue) => (h2, some nValue)
      | (h2, none) => (h2, none)

/-- Reachability of a heap value from another: `w` is a node of the tree
rooted at the first value (itself, or inside a cell some reference on the
way points to). -/
inductive HReach (h : Heap) : HVal → HVal → Prop where
  | refl (v : HVal) : HReach h v v
  | intoObj (a : Nat) (fs : List (String × HVal)) (k : String) (w v : HVal) :
      h.get? a = some (.obj fs) → (k, w) ∈ fs → HReach h w v → HReach h (.ref a) v
  | intoArr (a : Nat) (l : List HVal) (w v : HVal) :
      h.get? a = some (.arr l) → w ∈ l → HReach h w v → HReach h (.ref a) v

/-! # Lemmas

## Characters and digits -/

theorem toNat_ofNat_valid {n : Nat} (h : n < 0xd800) : (Char.ofNat n).toNat = n := by
  have hv : n.isValidChar := Or.inl h
  simp only [Char.ofNat, hv, dif_pos, Char.ofNatAux, Char.toNat, UInt32.ofNat', UInt32.toNat]
  simp [BitVec.toNat_ofNatLt]

theorem charCode_ofNat_valid {n : Nat} (h : n < 0xd800) : charCode (Char.ofNat n) = n :=
  toNat_ofNat_valid h

theorem ofNat_charCode (c : Char) : Char.ofNat (charCode c) = c := Char.ofNat_toNat c

theorem charCode_digitChar {n : Nat} (h : n < 10) : charCode (digitChar n) = 48 + n := by
  unfold digitChar
  exact charCode_ofNat_valid (by omega)

theorem isDigitB_digitChar {n : Nat} (h : n < 10) : isDigitB (digitChar n) = true := by
  simp only [isDigitB, charCode_digitChar h]
  simp only [Bool.and_eq_true, decide_eq_true_eq]
  omega

theorem charCode_lit_n : charCode 'n' = 110 := by decide

theorem hexVal_hexDigitChar {n : Nat} (h : n < 16) : hexVal (hexDigitChar n) = some n := by
  unfold hexVal hexDigitChar
  by_cases h10 : n < 10
  · rw [if_pos h10, charCode_ofNat_valid (by omega)]
    have h1 : (48 ≤ 48 + n && 48 + n ≤ 57) = true := by
      simp only [Bool.and_eq_true, decide_eq_true_eq]; omega
    simp only [h1, if_true]
    congr 1
    omega
  · rw [if_neg h10, charCode_ofNat_valid (by omega)]
    have h1 : (48 ≤ 87 + n && 87 + n ≤ 57) = false := by
      rw [Bool.and_eq_false_iff]
      right
      simp only [decide_eq_false_iff_not]; omega
    have h2 : (97 ≤ 87 + n && 87 + n ≤ 102) = true := by
      simp only [Bool.and_eq_true, decide_eq_true_eq]; omega
    simp only [h1, h2, Bool.false_eq_true, if_false, if_true]
    congr 1
    omega

theorem natCharsAux_ne_nil {f n : Nat} (h : 0 < f) : natCharsAux f n ≠ [] := by
  cases f with
  | zero => omega
  | succ f =>
    unfold natCharsAux
    by_cases h10 : n < 10
    · rw [if_pos h10]; simp
    · rw [if_neg h10]; simp

theorem allDigits_natCharsAux (f n : Nat) : allDigits (natCharsAux f n) = true := by
  induction f generalizing n with
  | zero => rfl
  | succ f ih =>
    unfold natCharsAux
    by_cases h10 : n < 10
    · rw [if_pos h10]
      simp [allDigits, isDigitB_digitChar h10]
    · rw [if_neg h10]
      simp only [allDigits, List.all_append, Bool.and_eq_true]
      constructor
      · exact ih _
      · simp [isDigitB_digitChar (Nat.mod_lt _ (by omega))]

theorem digitsVal_append_one (l : List Char) (c : Char) :
    digitsVal (l ++ [c]) = digitsVal l * 10 + (charCode c - 48) := by
  simp [digitsVal, List.foldl_append]

theorem digitsVal_natCharsAux {f n : Nat} (h : n < f) : digitsVal (natCharsAux f n) = n := by
  induction f generalizing n with
  | zero => omega
  | succ f ih =>
    unfold natCharsAux
    by_cases h10 : n < 10
    · rw [if_pos h10]
      simp [digitsVal, charCode_digitChar h10]
    · rw [if_neg h10]
      rw [digitsVal_append_one, ih (by
        have := Nat.div_lt_self (show 0 < n by omega) (show 1 < 10 by omega)
        omega)]
      rw [charCode_digitChar (Nat.mod_lt _ (by omega))]
      omega

theorem digitsVal_natChars (n : Nat) : digitsVal (natChars n) = n :=
  digitsVal_natCharsAux (Nat.lt_succ_self n)

theorem allDigits_natChars (n : Nat) : allDigits (natChars n) = true :=
  allDigits_natCharsAux _ _

theorem natChars_ne_nil (n : Nat) : natChars n ≠ [] :=
  natCharsAux_ne_nil (Nat.succ_pos n)

theorem splitDigits_spec {l r : List Char} (hl : allDigits l = true)
    (hr : noDigitHeadB r = true) : splitDigits (l ++ r) = (l, r) := by
  induction l with
  | nil =>
    simp only [List.nil_append]
    cases r with
    | nil => rfl
    | cons c cs =>
      simp only [noDigitHeadB, Bool.not_eq_true'] at hr
      unfold splitDigits
      rw [if_neg (by simp [hr])]
  | cons c l ih =>
    simp only [allDigits, List.all_cons, Bool.and_eq_true] at hl
    unfold splitDigits
    simp only [List.cons_append]
    rw [if_pos hl.1]
    have := ih (by simp [allDigits, hl.2])
    simp [this]

/-! ## String literal round trips -/

theorem parseStrBody_escList (s : List Char) : ∀ r : List Char,
    parseStrBody (escList escChar s ++ '"' :: r) = some (s, r) := by
  induction s with
  | nil =>
    intro r
    show parseStrBody ('"' :: r) = some ([], r)
    rw [parseStrBody.eq_def]
    simp
  | cons c cs ih =>
    intro r
    by_cases h1 : c = '"'
    · subst h1
      simp only [escList, escChar, if_pos rfl, List.cons_append, List.append_assoc]
      rw [parseStrBody.eq_def]
      simp [ih r]
    by_cases h2 : c = '\\'
    · subst h2
      simp only [escList, escChar, if_neg h1, if_pos rfl, List.cons_append, List.append_assoc]
      rw [parseStrBody.eq_def]
      simp [ih r]
    by_cases h3 : c = '\n'
    · subst h3
      simp only [escList, escChar, if_neg h1, if_neg h2, if_pos rfl, List.cons_append,
        List.append_assoc]
      rw [parseStrBody.eq_def]
      simp [ih r]
    by_cases h4 : c = '\r'
    · subst h4
      simp only [escList, escChar, if_neg h1, if_neg h2, if_neg h3, if_pos rfl,
        List.cons_append, List.append_assoc]
      rw [parseStrBody.eq_def]
      simp [ih r]
    by_cases h5 : c = '\t'
    · subst h5
      simp only [escList, escChar, if_neg h1, if_neg h2, if_neg h3, if_neg h4, if_pos rfl,
        List.cons_append, List.append_assoc]
      rw [parseStrBody.eq_def]
      simp [ih r]
    by_cases h6 : charCode c < 32
    · have e1 : hexVal (hexDigitChar (charCode c / 16)) = some (charCode c / 16) :=
        hexVal_hexDigitChar (by omega)
      have e2 : hexVal (hexDigitChar (charCode c % 16)) = some (charCode c % 16) :=
        hexVal_hexDigitChar (Nat.mod_lt _ (by omega))
      have hn : ((0 * 16 + 0) * 16 + charCode c / 16) * 16 + charCode c % 16 = charCode c := by
        omega
      have hlt : ((0 * 16 + 0) * 16 + charCode c / 16) * 16 + charCode c % 16 < 0xd800 := by
        omega
      simp only [escList, escChar, if_neg h1, if_neg h2, if_neg h3, if_neg h4, if_neg h5,
        if_pos h6, List.cons_append, List.append_assoc]
      rw [parseStrBody.eq_def]
      simp only [reduceIte, reduceCtorEq]
      simp only [e1, e2, ih r, show hexVal '0' = some 0 from by decide]
      have hn' : charCode c / 16 * 16 + charCode c % 16 = charCode c := by omega
      simp [hn', ofNat_charCode, ih r]
      omega
    · simp only [escList, escChar, if_neg h1, if_neg h2, if_neg h3, if_neg h4, if_neg h5,
        if_neg h6, List.cons_append, List.singleton_append]
      rw [parseStrBody.eq_def]
      simp [if_neg h1, if_neg h2, ih r]

theorem parseStrBody_goQuote (s : List Char) : ∀ r : List Char, quoteSafeB s = true →
    parseStrBody (escList goQuoteChar s ++ '"' :: r) = some (s, r) := by
  induction s with
  | nil =>
    intro r _
    show parseStrBody ('"' :: r) = some ([], r)
    rw [parseStrBody.eq_def]
    simp
  | cons c cs ih =>
    intro r hctl
    simp only [quoteSafeB, List.all_cons, Bool.and_eq_true, decide_eq_true_eq] at hctl
    obtain ⟨⟨⟨hge, hne127⟩, hbmp⟩, hrest⟩ := hctl
    have ih' := ih r hrest
    by_cases h1 : c = '"'
    · subst h1
      simp only [escList, goQuoteChar, if_pos rfl, List.cons_append, List.append_assoc]
      rw [parseStrBody.eq_def]
      simp [ih']
    by_cases h2 : c = '\\'
    · subst h2
      simp only [escList, goQuoteChar, if_neg h1, if_pos rfl, List.cons_append,
        List.append_assoc]
      rw [parseStrBody.eq_def]
      simp [ih']
    · have h3 : ¬c = '\n' := fun h => by subst h; simp [charCode] at hge
      have h4 : ¬c = '\r' := fun h => by subst h; simp [charCode] at hge
      have h5 : ¬c = '\t' := fun h => by subst h; simp [charCode] at hge
      have h7 : ¬charCode c = 7 := by omega
      have h8 : ¬charCode c = 8 := by omega
      have h11 : ¬charCode c = 11 := by omega
      have h12 : ¬charCode c = 12 := by omega
      have h6 : ¬(charCode c < 32 ∨ charCode c = 127) := by omega
      simp only [escList, goQuoteChar, if_neg h1, if_neg h2, if_neg h3, if_neg h4, if_neg h5,
        if_neg h7, if_neg h8, if_neg h11, if_neg h12, if_neg h6, List.cons_append,
        List.singleton_append]
      rw [parseStrBody.eq_def]
      simp [if_neg h1, if_neg h2, ih']

theorem escChar_length_pos (c : Char) : 0 < (escChar c).length := by
  unfold escChar
  split_ifs <;> simp

theorem length_le_escList (l : List Char) : l.length ≤ (escList escChar l).length := by
  induction l with
  | nil => simp [escList]
  | cons c cs ih =>
    have := escChar_length_pos c
    simp only [escList, List.length_append, List.length_cons]
    omega

theorem goUnquoteBody_escList (s : List Char) : ∀ (f : Nat) (r : List Char), s.length < f →
    goUnquoteBody f (escList escChar s ++ '"' :: r) = some (s, r) := by
  induction s with
  | nil =>
    intro f r hf
    match f, hf with
    | f + 1, _ =>
      show goUnquoteBody (f + 1) ('"' :: r) = some ([], r)
      rw [goUnquoteBody.eq_def]
      simp
  | cons c cs ih =>
    intro f r hf
    match f, hf with
    | f + 1, hf =>
      have ih' := ih f r (by simp at hf ⊢; omega)
      by_cases h1 : c = '"'
      · subst h1
        simp only [escList, escChar, if_pos rfl, List.cons_append, List.append_assoc]
        rw [goUnquoteBody.eq_def]
        simp [ih']
      by_cases h2 : c = '\\'
      · subst h2
        simp only [escList, escChar, if_neg h1, if_pos rfl, List.cons_append, List.append_assoc]
        rw [goUnquoteBody.eq_def]
        simp [ih']
      by_cases h3 : c = '\n'
      · subst h3
        simp only [escList, escChar, if_neg h1, if_neg h2, if_pos rfl, List.cons_append,
          List.append_assoc]
        rw [goUnquoteBody.eq_def]
        simp [ih']
      by_cases h4 : c = '\r'
      · subst h4
        simp only [escList, escChar, if_neg h1, if_neg h2, if_neg h3, if_pos rfl,
          List.cons_append, List.append_assoc]
        rw [goUnquoteBody.eq_def]
        simp [ih']
      by_cases h5 : c = '\t'
      · subst h5
        simp only [escList, escChar, if_neg h1, if_neg h2, if_neg h3, if_neg h4, if_pos rfl,
          List.cons_append, List.append_assoc]
        rw [goUnquoteBody.eq_def]
        simp [ih']
      by_cases h6 : charCode c < 32
      · have e1 : hexVal (hexDigitChar (charCode c / 16)) = some (charCode c / 16) :=
          hexVal_hexDigitChar (by omega)
        have e2 : hexVal (hexDigitChar (charCode c % 16)) = some (charCode c % 16) :=
          hexVal_hexDigitChar (Nat.mod_lt _ (by omega))
        simp only [escList, escChar, if_neg h1, if_neg h2, if_neg h3, if_neg h4, if_neg h5,
          if_pos h6, List.cons_append, List.append_assoc]
        rw [goUnquoteBody.eq_def]
        have hn' : charCode c / 16 * 16 + charCode c % 16 = charCode c := by omega
        simp [e1, e2, readHex4, hn', ofNat_charCode, ih',
          show hexVal '0' = some 0 from by decide]
        omega
      · simp only [escList, escChar, if_neg h1, if_neg h2, if_neg h3, if_neg h4, if_neg h5,
          if_neg h6, List.cons_append, List.singleton_append]
        rw [goUnquoteBody.eq_def]
        simp [if_neg h1, if_neg h2, if_neg h3, ih']

theorem goUnquote_jsonQuote (l : List Char) :
    goUnquote ⟨jsonQuoteChars l⟩ = some ⟨l⟩ := by
  show goUnquote ⟨'"' :: (escList escChar l ++ ['"'])⟩ = some ⟨l⟩
  unfold goUnquote
  have hb : escList escChar l ++ ['"'] = escList escChar l ++ '"' :: ([] : List Char) := rfl
  have hlen : l.length < (escList escChar l ++ ['"']).length + 1 := by
    have := length_le_escList l
    simp only [List.length_append, List.length_cons, List.length_nil]
    omega
  simp only [hb]
  rw [goUnquoteBody_escList l _ [] (by simpa using hlen)]

/-! ## String order, sorting and deduplication -/

theorem charCode_inj {a b : Char} (h : charCode a = charCode b) : a = b := by
  have h2 := congrArg Char.ofNat h
  rwa [ofNat_charCode, ofNat_charCode] at h2

theorem strLeB_total (a b : List Char) : strLeB a b = true ∨ strLeB b a = true := by
  induction a generalizing b with
  | nil => left; rfl
  | cons c a ih =>
    cases b with
    | nil => right; rfl
    | cons d b =>
      rcases Nat.lt_trichotomy (charCode c) (charCode d) with h | h | h
      · left; unfold strLeB; rw [if_pos h]
      · rcases ih b with h2 | h2
        · left; unfold strLeB; rw [if_neg (by omega), if_neg (by omega)]; exact h2
        · right; unfold strLeB; rw [if_neg (by omega), if_neg (by omega)]; exact h2
      · right; unfold strLeB; rw [if_pos h]

theorem strLeB_trans {a b c : List Char} (h1 : strLeB a b = true) (h2 : strLeB b c = true) :
    strLeB a c = true := by
  induction a generalizing b c with
  | nil => rfl
  | cons x a ih =>
    cases b with
    | nil => simp [strLeB] at h1
    | cons y b =>
      cases c with
      | nil => simp [strLeB] at h2
      | cons z c =>
        unfold strLeB at h1 h2 ⊢
        rcases Nat.lt_trichotomy (charCode x) (charCode y) with hxy | hxy | hxy <;>
          rcases Nat.lt_trichotomy (charCode y) (charCode z) with hyz | hyz | hyz
        all_goals first
          | (rw [if_pos (by omega)])
          | (rw [if_neg (by omega), if_neg (by omega)]
             rw [if_neg (by omega), if_neg (by omega)] at h1 h2
             exact ih h1 h2)
          | (exfalso
             first
               | (rw [if_neg (by omega), if_pos (by omega)] at h1; exact absurd h1 (by simp))
               | (rw [if_neg (by omega), if_pos (by omega)] at h2; exact absurd h2 (by simp)))

theorem strLeB_antisymm {a b : List Char} (h1 : strLeB a b = true) (h2 : strLeB b a = true) :
    a = b := by
  induction a generalizing b with
  | nil =>
    cases b with
    | nil => rfl
    | cons y b => simp [strLeB] at h2
  | cons x a ih =>
    cases b with
    | nil => simp [strLeB] at h1
    | cons y b =>
      unfold strLeB at h1 h2
      rcases Nat.lt_trichotomy (charCode x) (charCode y) with hxy | hxy | hxy
      · rw [if_neg (by omega), if_pos (by omega)] at h2; exact absurd h2 (by simp)
      · rw [if_neg (by omega), if_neg (by omega)] at h1 h2
        rw [charCode_inj hxy, ih h1 h2]
      · rw [if_neg (by omega), if_pos (by omega)] at h1; exact absurd h1 (by simp)

theorem strLeB_refl (a : List Char) : strLeB a a = true := by
  rcases strLeB_total a a with h | h <;> exact h

theorem mem_fieldInsert {x f : String × Value} {gs : List (String × Value)} :
    x ∈ fieldInsert f gs ↔ x = f ∨ x ∈ gs := by
  induction gs with
  | nil => simp [fieldInsert]
  | cons g gs ih =>
    unfold fieldInsert
    by_cases h : strLeB f.1.data g.1.data = true
    · rw [if_pos h]; simp
    · rw [if_neg h]; simp [ih]; tauto

theorem mem_sortFields {x : String × Value} {fs : List (String × Value)} :
    x ∈ sortFields fs ↔ x ∈ fs := by
  induction fs with
  | nil => simp [sortFields]
  | cons f fs ih => unfold sortFields; rw [mem_fieldInsert]; simp [ih]

theorem mem_dedupFields {x : String × Value} {fs : List (String × Value)}
    (h : x ∈ dedupFields fs) : x ∈ fs := by
  induction fs with
  | nil => simpa [dedupFields] using h
  | cons f fs ih =>
    cases fs with
    | nil => simpa [dedupFields] using h
    | cons g gs =>
      unfold dedupFields at h
      by_cases he : f.1 = g.1
      · rw [if_pos he] at h; exact List.mem_cons_of_mem _ (ih h)
      · rw [if_neg he] at h
        rcases List.mem_cons.mp h with h | h
        · exact h ▸ List.mem_cons_self _ _
        · exact List.mem_cons_of_mem _ (ih h)

theorem keysSortedB_cons {f g : String × Value} {fs : List (String × Value)} :
    keysSortedB (f :: g :: fs) = true ↔
      strLeB f.1.data g.1.data = true ∧ keysSortedB (g :: fs) = true := by
  simp [keysSortedB]

theorem keysSortedB_fieldInsert {f : String × Value} {gs : List (String × Value)}
    (h : keysSortedB gs = true) : keysSortedB (fieldInsert f gs) = true := by
  induction gs with
  | nil => rfl
  | cons g gs ih =>
    unfold fieldInsert
    by_cases hle : strLeB f.1.data g.1.data = true
    · rw [if_pos hle]
      exact keysSortedB_cons.mpr ⟨hle, h⟩
    · rw [if_neg hle]
      have hgf : strLeB g.1.data f.1.data = true := by
        rcases strLeB_total f.1.data g.1.data with h2 | h2
        · exact absurd h2 hle
        · exact h2
      cases gs with
      | nil =>
        show keysSortedB (g :: [f]) = true
        exact keysSortedB_cons.mpr ⟨hgf, rfl⟩
      | cons g2 gs2 =>
        have htail : keysSortedB (g2 :: gs2) = true := (keysSortedB_cons.mp h).2
        have hins := ih htail
        unfold fieldInsert
        by_cases hle2 : strLeB f.1.data g2.1.data = true
        · rw [if_pos hle2]
          exact keysSortedB_cons.mpr ⟨hgf, keysSortedB_cons.mpr ⟨hle2, htail⟩⟩
        · rw [if_neg hle2]
          have hg12 : strLeB g.1.data g2.1.data = true := (keysSortedB_cons.mp h).1
          unfold fieldInsert at hins
          rw [if_neg hle2] at hins
          exact keysSortedB_cons.mpr ⟨hg12, hins⟩

theorem keysSortedB_sortFields (fs : List (String × Value)) :
    keysSortedB (sortFields fs) = true := by
  induction fs with
  | nil => rfl
  | cons f fs ih => exact keysSortedB_fieldInsert ih

theorem fieldInsert_of_le {f g : String × Value} {gs : List (String × Value)}
    (h : strLeB f.1.data g.1.data = true) : fieldInsert f (g :: gs) = f :: g :: gs := by
  unfold fieldInsert
  rw [if_pos h]

theorem sortFields_of_sorted {fs : List (String × Value)} (h : keysSortedB fs = true) :
    sortFields fs = fs := by
  induction fs with
  | nil => rfl
  | cons f fs ih =>
    cases fs with
    | nil => rfl
    | cons g gs =>
      have h1 := (keysSortedB_cons.mp h).1
      have h2 := (keysSortedB_cons.mp h).2
      unfold sortFields
      have : sortFields (g :: gs) = g :: gs := ih h2
      rw [this, fieldInsert_of_le h1]

theorem strEq_of_dataEq {a b : String} (h : a.data = b.data) : a = b := by
  cases a; cases b; simp only at h; rw [h]

theorem keyNotMem_iff {k : String} {fs : List (String × Value)} :
    keyNotMem k fs = true ↔ ∀ p ∈ fs, p.1 ≠ k := by
  induction fs with
  | nil => simp [keyNotMem]
  | cons f fs ih =>
    cases f with
    | mk k2 v2 => simp [keyNotMem, ih]

theorem keysSortedB_head_le {f : String × Value} {fs : List (String × Value)}
    (h : keysSortedB (f :: fs) = true) : ∀ p ∈ fs, strLeB f.1.data p.1.data = true := by
  induction fs generalizing f with
  | nil => simp
  | cons g gs ih =>
    intro p hp
    have h1 := (keysSortedB_cons.mp h).1
    have h2 := (keysSortedB_cons.mp h).2
    rcases List.mem_cons.mp hp with rfl | hp
    · exact h1
    · exact strLeB_trans h1 (ih h2 p hp)

theorem keysSortedB_tail {f : String × Value} {fs : List (String × Value)}
    (h : keysSortedB (f :: fs) = true) : keysSortedB fs = true := by
  cases fs with
  | nil => rfl
  | cons g gs => exact (keysSortedB_cons.mp h).2

theorem dedupFields_ne_nil {fs : List (String × Value)} (h : fs ≠ []) :
    dedupFields fs ≠ [] := by
  induction fs with
  | nil => exact absurd rfl h
  | cons f fs ih =>
    cases fs with
    | nil => simp [dedupFields]
    | cons g gs =>
      unfold dedupFields
      by_cases he : f.1 = g.1
      · rw [if_pos he]; exact ih (by simp)
      · rw [if_neg he]; simp

theorem dedupFields_sorted {fs : List (String × Value)} (h : keysSortedB fs = true) :
    keysSortedB (dedupFields fs) = true := by
  induction fs with
  | nil => rfl
  | cons f fs ih =>
    cases fs with
    | nil => rfl
    | cons g gs =>
      unfold dedupFields
      by_cases he : f.1 = g.1
      · rw [if_pos he]; exact ih (keysSortedB_tail h)
      · rw [if_neg he]
        have hd := ih (keysSortedB_tail h)
        cases hdd : dedupFields (g :: gs) with
        | nil => exact absurd hdd (dedupFields_ne_nil (by simp))
        | cons d ds =>
          rw [hdd] at hd
          refine keysSortedB_cons.mpr ⟨?_, hd⟩
          have hdm : d ∈ g :: gs := mem_dedupFields (hdd ▸ List.mem_cons_self d ds)
          exact keysSortedB_head_le h d hdm

theorem dedup_distinct {fs : List (String × Value)} (hs : keysSortedB fs = true) :
    keysDistinctB (dedupFields fs) = true := by
  induction fs with
  | nil => rfl
  | cons f fs ih =>
    cases fs with
    | nil => rfl
    | cons g gs =>
      unfold dedupFields
      by_cases he : f.1 = g.1
      · rw [if_pos he]; exact ih (keysSortedB_tail hs)
      · rw [if_neg he]
        have hd := ih (keysSortedB_tail hs)
        have hnm : keyNotMem f.1 (dedupFields (g :: gs)) = true := by
          rw [keyNotMem_iff]
          intro p hp hpk
          have hpm : p ∈ g :: gs := mem_dedupFields hp
          have hfp : strLeB f.1.data p.1.data = true := keysSortedB_head_le hs p hpm
          rcases List.mem_cons.mp hpm with rfl | hpm2
          · exact he hpk.symm
          · have hgp : strLeB g.1.data p.1.data = true :=
              keysSortedB_head_le (keysSortedB_tail hs) p hpm2
            have hfg : strLeB f.1.data g.1.data = true := (keysSortedB_cons.mp hs).1
            have hpf : strLeB p.1.data f.1.data = true := by
              rw [hpk]; exact strLeB_refl _
            have : g.1.data = f.1.data :=
              strLeB_antisymm (strLeB_trans hgp hpf) hfg
            exact he (strEq_of_dataEq this).symm
        cases fs2 : dedupFields (g :: gs) with
        | nil => rfl
        | cons d ds =>
          show (keyNotMem f.1 (d :: ds) && keysDistinctB (d :: ds)) = true
          rw [fs2] at hnm hd
          simp [hnm, hd]

theorem dedupFields_of_distinct {fs : List (String × Value)}
    (h : keysDistinctB fs = true) : dedupFields fs = fs := by
  induction fs with
  | nil => rfl
  | cons f fs ih =>
    cases fs with
    | nil => rfl
    | cons g gs =>
      obtain ⟨k, v⟩ := f
      have hsplit : keyNotMem k (g :: gs) = true ∧ keysDistinctB (g :: gs) = true := by
        simpa [keysDistinctB] using h
      have h1 := hsplit.1
      have h2 := hsplit.2
      have hne : ¬(k, v).1 = g.1 := by
        rw [keyNotMem_iff] at h1
        exact fun hh => h1 g (List.mem_cons_self g gs) hh.symm
      unfold dedupFields
      rw [if_neg hne, ih h2]

theorem CanonFB_iff {fs : List (String × Value)} :
    CanonFB fs = true ↔ ∀ p ∈ fs, CanonB p.2 = true := by
  induction fs with
  | nil => simp [CanonFB]
  | cons f fs ih =>
    cases f with
    | mk k v => simp [CanonFB, ih]

mutual
theorem CanonB_canon (v : Value) : CanonB (canon v) = true := by
  cases v with
  | null => rfl
  | bool b => rfl
  | num n => rfl
  | str s => rfl
  | arr vs =>
    show CanonLB (canonList vs) = true
    exact CanonLB_canonList vs
  | obj fs =>
    show CanonB (.obj (dedupFields (sortFields (canonFields fs)))) = true
    have hs := keysSortedB_sortFields (canonFields fs)
    have h1 := dedupFields_sorted hs
    have h2 := dedup_distinct hs
    have h3 : CanonFB (dedupFields (sortFields (canonFields fs))) = true := by
      rw [CanonFB_iff]
      intro p hp
      have : p ∈ canonFields fs := mem_sortFields.mp (mem_dedupFields hp)
      exact CanonFB_iff.mp (CanonFB_canonFields fs) p this
    show (keysSortedB _ && keysDistinctB _ && CanonFB _) = true
    simp [h1, h2, h3]

theorem CanonLB_canonList (vs : List Value) : CanonLB (canonList vs) = true := by
  cases vs with
  | nil => rfl
  | cons v vs =>
    show (CanonB (canon v) && CanonLB (canonList vs)) = true
    simp [CanonB_canon v, CanonLB_canonList vs]

theorem CanonFB_canonFields (fs : List (String × Value)) :
    CanonFB (canonFields fs) = true := by
  cases fs with
  | nil => rfl
  | cons f fs =>
    cases f with
    | mk k v =>
      show (CanonB (canon v) && CanonFB (canonFields fs)) = true
      simp [CanonB_canon v, CanonFB_canonFields fs]
end

mutual
theorem canon_of_CanonB (v : Value) (h : CanonB v = true) : canon v = v := by
  cases v with
  | null => rfl
  | bool b => rfl
  | num n => rfl
  | str s => rfl
  | arr vs =>
    show Value.arr (canonList vs) = Value.arr vs
    rw [canonList_of_CanonLB vs h]
  | obj fs =>
    have h3 : CanonFB fs = true := by
      have := h
      simp only [CanonB, Bool.and_eq_true] at this
      exact this.2
    have h1 : keysSortedB fs = true := by
      simp only [CanonB, Bool.and_eq_true] at h
      exact h.1.1
    have h2 : keysDistinctB fs = true := by
      simp only [CanonB, Bool.and_eq_true] at h
      exact h.1.2
    show Value.obj (dedupFields (sortFields (canonFields fs))) = Value.obj fs
    rw [canonFields_of_CanonFB fs h3, sortFields_of_sorted h1, dedupFields_of_distinct h2]

theorem canonList_of_CanonLB (vs : List Value) (h : CanonLB vs = true) :
    canonList vs = vs := by
  cases vs with
  | nil => rfl
  | cons v vs =>
    have h' : CanonB v = true ∧ CanonLB vs = true := by
      simpa [CanonLB] using h
    show canon v :: canonList vs = v :: vs
    rw [canon_of_CanonB v h'.1, canonList_of_CanonLB vs h'.2]

theorem canonFields_of_CanonFB (fs : List (String × Value)) (h : CanonFB fs = true) :
    canonFields fs = fs := by
  cases fs with
  | nil => rfl
  | cons f fs =>
    cases f with
    | mk k v =>
      have h' : CanonB v = true ∧ CanonFB fs = true := by
        simpa [CanonFB] using h
      show (k, canon v) :: canonFields fs = (k, v) :: fs
      rw [canon_of_CanonB v h'.1, canonFields_of_CanonFB fs h'.2]
end

theorem canon_canon (v : Value) : canon (canon v) = canon v :=
  canon_of_CanonB _ (CanonB_canon v)


/-! ## Round trip of the serializer through the parser -/

theorem strMk_data (s : String) : (⟨s.data⟩ : String) = s := by
  cases s; rfl

theorem sizeW_pos (w : Value) : 1 ≤ sizeW w := by
  cases w <;> simp [sizeW]

theorem isDigitB_ne_lit {c : Char} (h : isDigitB c = true) :
    c ≠ 'n' ∧ c ≠ 't' ∧ c ≠ 'f' ∧ c ≠ '"' ∧ c ≠ '[' ∧ c ≠ lCurly ∧ c ≠ ']' ∧ c ≠ '-' := by
  simp only [isDigitB, Bool.and_eq_true, decide_eq_true_eq] at h
  refine ⟨?_, ?_, ?_, ?_, ?_, ?_, ?_, ?_⟩ <;>
    (intro hc; subst hc; revert h; decide)

theorem natChars_head (n : Nat) : ∃ d ds, natChars n = d :: ds ∧ isDigitB d = true := by
  cases hn : natChars n with
  | nil => exact absurd hn (natChars_ne_nil n)
  | cons d ds =>
    refine ⟨d, ds, rfl, ?_⟩
    have := allDigits_natChars n
    rw [hn] at this
    simp only [allDigits, List.all_cons, Bool.and_eq_true] at this
    exact this.1

theorem serRaw_head (w : Value) :
    ∃ c t, serRaw w = c :: t ∧ c ≠ ']' := by
  cases w with
  | null => exact ⟨'n', _, rfl, by decide⟩
  | bool b => cases b with
    | true => exact ⟨'t', _, rfl, by decide⟩
    | false => exact ⟨'f', _, rfl, by decide⟩
  | num n =>
    by_cases hp : n < 0
    · refine ⟨'-', natChars n.natAbs, ?_, by decide⟩
      show intChars n = _
      unfold intChars
      rw [if_pos hp]
    · obtain ⟨d, ds, hds, hdig⟩ := natChars_head n.toNat
      refine ⟨d, ds, ?_, (isDigitB_ne_lit hdig).2.2.2.2.2.2.1⟩
      show intChars n = _
      unfold intChars
      rw [if_neg hp, hds]
  | str s => exact ⟨'"', _, rfl, by decide⟩
  | arr vs =>
    cases vs with
    | nil => exact ⟨'[', _, rfl, by decide⟩
    | cons v vs => exact ⟨'[', _, rfl, by decide⟩
  | obj fs =>
    cases fs with
    | nil => exact ⟨lCurly, _, rfl, by decide⟩
    | cons f fs => exact ⟨lCurly, _, rfl, by decide⟩

theorem keyNotMem_append {k : String} {a b : List (String × Value)} :
    keyNotMem k (a ++ b) = (keyNotMem k a && keyNotMem k b) := by
  induction a with
  | nil => simp [keyNotMem]
  | cons f fs ih =>
    cases f with
    | mk k2 v2 =>
      simp [keyNotMem, ih, Bool.and_assoc]

theorem objInsert_append {fs : List (String × Value)} {k : String} {v : Value}
    (h : keyNotMem k fs = true) : objInsert fs k v = fs ++ [(k, v)] := by
  induction fs with
  | nil => rfl
  | cons f fs ih =>
    cases f with
    | mk k2 v2 =>
      simp only [keyNotMem, Bool.and_eq_true, Bool.not_eq_true', decide_eq_false_iff_not] at h
      unfold objInsert
      rw [if_neg h.1, ih h.2]
      rfl

theorem foldl_objInsert_acc (fs : List (String × Value)) :
    ∀ acc : List (String × Value), keysDistinctB fs = true →
      (∀ p ∈ fs, keyNotMem p.1 acc = true) →
      fs.foldl (fun m p => objInsert m p.1 p.2) acc = acc ++ fs := by
  induction fs with
  | nil => intro acc _ _; simp
  | cons f fs ih =>
    intro acc hd hdisj
    cases f with
    | mk k v =>
      have hsplit : keyNotMem k fs = true ∧ keysDistinctB fs = true := by
        simpa [keysDistinctB] using hd
      have hins : objInsert acc k v = acc ++ [(k, v)] :=
        objInsert_append (hdisj (k, v) (List.mem_cons_self _ _))
      show List.foldl _ (objInsert acc k v) fs = acc ++ (k, v) :: fs
      rw [hins, ih (acc ++ [(k, v)]) hsplit.2 ?_]
      · simp
      · intro p hp
        rw [keyNotMem_append]
        have h1 : keyNotMem p.1 acc = true := hdisj p (List.mem_cons_of_mem _ hp)
        have h2 : keyNotMem p.1 [(k, v)] = true := by
          have hnk : p.1 ≠ k := keyNotMem_iff.mp hsplit.1 p hp
          have : ¬k = p.1 := fun hh => hnk hh.symm
          simp [keyNotMem, this]
        simp [h1, h2]

theorem foldl_objInsert_self {fs : List (String × Value)} (h : keysDistinctB fs = true) :
    fs.foldl (fun m p => objInsert m p.1 p.2) [] = fs := by
  have := foldl_objInsert_acc fs [] h (by intro p _; rfl)
  simpa using this


theorem parseV_num (n : Int) (f : Nat) (r : List Char) (hr : noDigitHeadB r = true) :
    parseV (f + 1) (intChars n ++ r) = some (.num n, r) := by
  by_cases hp : n < 0
  · obtain ⟨d, ds, hds, hdig⟩ := natChars_head n.natAbs
    have hall : allDigits (d :: ds) = true := by rw [← hds]; exact allDigits_natChars _
    have hsplit : splitDigits (d :: (ds ++ r)) = (d :: ds, r) := by
      have := splitDigits_spec hall hr
      simpa using this
    have hval : digitsVal (d :: ds) = n.natAbs := by rw [← hds]; exact digitsVal_natChars _
    unfold intChars
    rw [if_pos hp, hds]
    rw [parseV.eq_def]
    simp only [List.cons_append]
    simp only [reduceIte, reduceCtorEq, show ('-' : Char) ≠ 'n' from by decide,
      show ('-' : Char) ≠ 't' from by decide, show ('-' : Char) ≠ 'f' from by decide,
      show ('-' : Char) ≠ '"' from by decide, show ('-' : Char) ≠ '[' from by decide,
      show ('-' : Char) ≠ lCurly from by decide, show isDigitB '-' = false from by decide,
      if_neg, if_pos, Bool.false_eq_true, if_false]
    rw [parseNumNeg.eq_def]
    simp only [hdig, if_pos, hsplit, hval]
    have : -((n.natAbs : Nat) : Int) = n := by omega
    rw [this]
  · obtain ⟨d, ds, hds, hdig⟩ := natChars_head n.toNat
    have hall : allDigits (d :: ds) = true := by rw [← hds]; exact allDigits_natChars _
    have hsplit : splitDigits (d :: (ds ++ r)) = (d :: ds, r) := by
      have := splitDigits_spec hall hr
      simpa using this
    have hval : digitsVal (d :: ds) = n.toNat := by rw [← hds]; exact digitsVal_natChars _
    have hne := isDigitB_ne_lit hdig
    unfold intChars
    rw [if_neg hp, hds]
    rw [parseV.eq_def]
    simp only [List.cons_append]
    rw [if_neg hne.1, if_neg hne.2.1, if_neg hne.2.2.1, if_neg hne.2.2.2.1,
      if_neg hne.2.2.2.2.1, if_neg hne.2.2.2.2.2.1, if_pos hdig]
    simp only [hsplit, hval]
    have : ((n.toNat : Nat) : Int) = n := by omega
    rw [this]

theorem noDigitHeadB_rbracket (l : List Char) : noDigitHeadB (']' :: l) = true := rfl

theorem noDigitHeadB_comma (l : List Char) : noDigitHeadB (',' :: l) = true := rfl

theorem noDigitHeadB_rcurly (l : List Char) : noDigitHeadB (rCurly :: l) = true := by
  show (!isDigitB rCurly) = true
  decide

theorem serRaw_head_ne_rb (v : Value) (x : List Char) :
    ¬(serRaw v ++ x).head? = some ']' := by
  obtain ⟨c0, t0, hvh, hvne⟩ := serRaw_head v
  rw [hvh]
  simp [hvne]

theorem parse_roundTrip (f : Nat) :
    (∀ (w : Value) (r : List Char), sizeW w ≤ f → CanonB w = true → noDigitHeadB r = true →
      parseV f (serRaw w ++ r) = some (w, r)) ∧
    (∀ (vs : List Value) (r : List Char), sizeWL vs + 1 ≤ f → CanonLB vs = true →
      noDigitHeadB r = true → parseArrRest f (serArrRest vs ++ ']' :: r) = some (vs, r)) ∧
    (∀ (k : String) (v : Value) (fs : List (String × Value)) (r : List Char),
      sizeW v + sizeWF fs + 1 ≤ f → CanonB v = true → CanonFB fs = true →
      noDigitHeadB r = true →
      parsePairs f (serField (k, v) ++ (serObjRest fs ++ rCurly :: r)) =
        some ((k, v) :: fs, r)) := by
  induction f with
  | zero =>
    refine ⟨?_, ?_, ?_⟩
    · intro w r hf _ _
      exact absurd hf (by have := sizeW_pos w; omega)
    · intro vs r hf _ _
      exact absurd hf (by omega)
    · intro k v fs r hf _ _ _
      exact absurd hf (by omega)
  | succ f ih =>
    obtain ⟨ihV, ihA, ihP⟩ := ih
    refine ⟨?_, ?_, ?_⟩
    · intro w r hf hc hr
      cases w with
      | null =>
        rw [parseV.eq_def]
        simp [stripLit, serRaw]
      | bool b =>
        cases b with
        | true =>
          rw [parseV.eq_def]
          simp [stripLit, serRaw, trueChars]
        | false =>
          rw [parseV.eq_def]
          simp [stripLit, serRaw]
      | num n => exact parseV_num n f r hr
      | str s =>
        show parseV (f + 1) (('"' :: escList escChar s.data ++ ['"']) ++ r) = _
        rw [parseV.eq_def]
        simp only [List.cons_append, List.append_assoc, List.singleton_append]
        simp [parseStrBody_escList s.data r, strMk_data]
      | arr vs =>
        cases vs with
        | nil =>
          show parseV (f + 1) ('[' :: ']' :: r) = _
          rw [parseV.eq_def]
          simp
        | cons v vs =>
          have hsize1 : sizeW v ≤ f := by
            have h1 := sizeW_pos v
            simp only [sizeW, sizeWL] at hf
            omega
          have hsize2 : sizeWL vs + 1 ≤ f := by
            have h1 := sizeW_pos v
            simp only [sizeW, sizeWL] at hf
            omega
          have hcsplit : CanonB v = true ∧ CanonLB vs = true := by
            simpa [CanonB, CanonLB] using hc
          have hrest : noDigitHeadB (serArrRest vs ++ ']' :: r) = true := by
            cases vs with
            | nil => exact noDigitHeadB_rbracket r
            | cons v2 vs2 => exact noDigitHeadB_comma _
          have hv := ihV v (serArrRest vs ++ ']' :: r) hsize1 hcsplit.1 hrest
          have hvs := ihA vs r hsize2 hcsplit.2 hr
          show parseV (f + 1) (('[' :: (serRaw v ++ serArrRest vs) ++ [']']) ++ r) = _
          rw [parseV.eq_def]
          simp only [List.cons_append, List.append_assoc, List.singleton_append,
            List.nil_append]
          rw [if_neg (by decide), if_neg (by decide), if_neg (by decide), if_neg (by decide)]
          simp only [if_true]
          rw [if_neg (serRaw_head_ne_rb v _)]
          rw [hv]
          simp [hvs]
      | obj fs =>
        cases fs with
        | nil =>
          show parseV (f + 1) (lCurly :: rCurly :: r) = _
          rw [parseV.eq_def]
          have h1 : ¬lCurly = 'n' := by decide
          have h2 : ¬lCurly = 't' := by decide
          have h3 : ¬lCurly = 'f' := by decide
          have h4 : ¬lCurly = '"' := by decide
          have h5 : ¬lCurly = '[' := by decide
          simp [h1, h2, h3, h4, h5]
        | cons f0 fs =>
          obtain ⟨k, v⟩ := f0
          have hsize2 : sizeW v + sizeWF fs + 1 ≤ f := by
            simp only [sizeW, sizeWF] at hf
            omega
          have hparts : keysSortedB ((k, v) :: fs) = true ∧
              keysDistinctB ((k, v) :: fs) = true ∧ CanonFB ((k, v) :: fs) = true := by
            simpa [CanonB, Bool.and_assoc] using hc
          have hcv : CanonB v = true ∧ CanonFB fs = true := by
            have := hparts.2.2
            simpa [CanonFB] using this
          have hpairs := ihP k v fs r hsize2 hcv.1 hcv.2 hr
          show parseV (f + 1)
            ((lCurly :: (serField (k, v) ++ serObjRest fs) ++ [rCurly]) ++ r) = _
          rw [parseV.eq_def]
          simp only [List.cons_append, List.append_assoc, List.singleton_append,
            List.nil_append]
          have h1 : ¬lCurly = 'n' := by decide
          have h2 : ¬lCurly = 't' := by decide
          have h3 : ¬lCurly = 'f' := by decide
          have h4 : ¬lCurly = '"' := by decide
          have h5 : ¬lCurly = '[' := by decide
          rw [if_neg h1, if_neg h2, if_neg h3, if_neg h4, if_neg h5]
          simp only [if_true]
          have hhead : (serField (k, v) ++ (serObjRest fs ++ rCurly :: r)).head? ≠
              some rCurly := by
            show (('"' :: escList escChar k.data ++ ['"']) ++ ':' :: serRaw v ++
              (serObjRest fs ++ rCurly :: r)).head? ≠ some rCurly
            simp only [List.cons_append, List.head?_cons]
            decide
          rw [if_neg hhead]
          rw [hpairs]
          simp [foldl_objInsert_self hparts.2.1]
    · intro vs r hf hc hr
      cases vs with
      | nil =>
        show parseArrRest (f + 1) (']' :: r) = _
        rw [parseArrRest.eq_def]
        simp
      | cons v vs =>
        have hsize1 : sizeW v ≤ f := by
          have h1 := sizeW_pos v
          simp only [sizeWL] at hf
          omega
        have hsize2 : sizeWL vs + 1 ≤ f := by
          have h1 := sizeW_pos v
          simp only [sizeWL] at hf
          omega
        have hcsplit : CanonB v = true ∧ CanonLB vs = true := by
          simpa [CanonLB] using hc
        have hrest : noDigitHeadB (serArrRest vs ++ ']' :: r) = true := by
          cases vs with
          | nil => exact noDigitHeadB_rbracket r
          | cons v2 vs2 => exact noDigitHeadB_comma _
        have hv := ihV v (serArrRest vs ++ ']' :: r) hsize1 hcsplit.1 hrest
        have hvs := ihA vs r hsize2 hcsplit.2 hr
        show parseArrRest (f + 1) ((',' :: serRaw v ++ serArrRest vs) ++ ']' :: r) = _
        rw [parseArrRest.eq_def]
        simp only [List.cons_append, List.append_assoc, List.head?_cons, List.tail_cons]
        rw [if_neg (by decide)]
        simp only [if_true]
        rw [hv]
        simp [hvs]
    · intro k v fs r hf hcv hcf hr
      have hrest : noDigitHeadB (serObjRest fs ++ rCurly :: r) = true := by
        cases fs with
        | nil => exact noDigitHeadB_rcurly r
        | cons f2 fs2 => exact noDigitHeadB_comma _
      have hsize1 : sizeW v ≤ f := by omega
      have hv := ihV v (serObjRest fs ++ rCurly :: r) hsize1 hcv hrest
      show parsePairs (f + 1)
        ((('"' :: escList escChar k.data ++ ['"']) ++ ':' :: serRaw v) ++
          (serObjRest fs ++ rCurly :: r)) = _
      rw [parsePairs.eq_def]
      simp only [List.cons_append, List.append_assoc, List.head?_cons, List.tail_cons,
        List.singleton_append, List.nil_append]
      have hk := parseStrBody_escList k.data
        (':' :: (serRaw v ++ (serObjRest fs ++ rCurly :: r)))
      rw [hk]
      simp only [Option.some_bind, List.head?_cons, List.tail_cons]
      simp only [if_true]
      rw [hv]
      simp only [Option.some_bind]
      cases fs with
      | nil =>
        simp only [serObjRest, List.nil_append, List.head?_cons, List.tail_cons]
        simp [strMk_data]
      | cons f2 fs2 =>
        obtain ⟨k2, v2⟩ := f2
        have hsize2 : sizeW v2 + sizeWF fs2 + 1 ≤ f := by
          have h1 := sizeW_pos v
          simp only [sizeWF] at hf
          omega
        have hcv2 : CanonB v2 = true ∧ CanonFB fs2 = true := by
          simpa [CanonFB] using hcf
        have hps := ihP k2 v2 fs2 r hsize2 hcv2.1 hcv2.2 hr
        simp only [serObjRest, List.cons_append, List.append_assoc, List.head?_cons,
          List.tail_cons]
        rw [if_neg (by decide)]
        simp only [if_true]
        rw [hps]
        simp [strMk_data]

theorem parseV_serRaw {w : Value} {f : Nat} {r : List Char} (hf : sizeW w ≤ f)
    (hc : CanonB w = true) (hr : noDigitHeadB r = true) :
    parseV f (serRaw w ++ r) = some (w, r) :=
  (parse_roundTrip f).1 w r hf hc hr




mutual
theorem sizeW_le_serRaw (w : Value) : sizeW w ≤ (serRaw w).length := by
  cases w with
  | null => simp [sizeW, serRaw]
  | bool b => cases b <;> simp [sizeW, serRaw, trueChars]
  | num n =>
    have h : serRaw (.num n) = intChars n := rfl
    rw [h]
    unfold intChars
    by_cases hp : n < 0
    · rw [if_pos hp]
      simp [sizeW]
    · rw [if_neg hp]
      obtain ⟨d, ds, hds, _⟩ := natChars_head n.toNat
      rw [hds]
      simp [sizeW]
  | str s =>
    show sizeW (.str s) ≤ (jsonQuoteChars s.data).length
    simp [sizeW, jsonQuoteChars]
  | arr vs =>
    cases vs with
    | nil => simp [sizeW, sizeWL, serRaw]
    | cons v vs =>
      have h1 := sizeW_le_serRaw v
      have h2 := sizeWL_le_serArrRest vs
      show sizeW (.arr (v :: vs)) ≤ ('[' :: (serRaw v ++ serArrRest vs) ++ [']']).length
      simp only [sizeW, sizeWL, List.length_append, List.length_cons, List.length_nil]
      omega
  | obj fs =>
    cases fs with
    | nil => simp [sizeW, sizeWF, serRaw]
    | cons f0 fs =>
      obtain ⟨k, v⟩ := f0
      have h1 := sizeW_le_serRaw v
      have h2 := sizeWF_le_serObjRest fs
      show sizeW (.obj ((k, v) :: fs)) ≤
        (lCurly :: (serField (k, v) ++ serObjRest fs) ++ [rCurly]).length
      have h3 : (serField (k, v)).length = (jsonQuoteChars k.data).length + 1 +
          (serRaw v).length := by
        show (jsonQuoteChars k.data ++ ':' :: serRaw v).length = _
        simp
        omega
      simp only [sizeW, sizeWF, List.length_append, List.length_cons, List.length_nil, h3]
      have h4 : 2 ≤ (jsonQuoteChars k.data).length := by simp [jsonQuoteChars]
      omega

theorem sizeWL_le_serArrRest (vs : List Value) : sizeWL vs ≤ (serArrRest vs).length := by
  cases vs with
  | nil => simp [sizeWL, serArrRest]
  | cons v vs =>
    have h1 := sizeW_le_serRaw v
    have h2 := sizeWL_le_serArrRest vs
    show sizeWL (v :: vs) ≤ (',' :: serRaw v ++ serArrRest vs).length
    simp only [sizeWL, List.length_cons, List.length_append]
    omega

theorem sizeWF_le_serObjRest (fs : List (String × Value)) :
    sizeWF fs ≤ (serObjRest fs).length := by
  cases fs with
  | nil => simp [sizeWF, serObjRest]
  | cons f0 fs =>
    obtain ⟨k, v⟩ := f0
    have h1 := sizeW_le_serRaw v
    have h2 := sizeWF_le_serObjRest fs
    show sizeWF ((k, v) :: fs) ≤ (',' :: serField (k, v) ++ serObjRest fs).length
    have h3 : (serField (k, v)).length = (jsonQuoteChars k.data).length + 1 +
        (serRaw v).length := by
      show (jsonQuoteChars k.data ++ ':' :: serRaw v).length = _
      simp
      omega
    simp only [sizeWF, List.length_cons, List.length_append, h3]
    have h4 : 2 ≤ (jsonQuoteChars k.data).length := by simp [jsonQuoteChars]
    omega
end

theorem parseJson_ser (v : Value) : parseJson (ser v) = some (canon v) := by
  unfold parseJson ser
  have h := parseV_serRaw (w := canon v) (f := (serRaw (canon v)).length + 1) (r := [])
    (by have := sizeW_le_serRaw (canon v); omega) (CanonB_canon v) rfl
  rw [List.append_nil] at h
  simp only
  rw [h]

theorem deepCopy_eq (v : Value) : deepCopy v = .ok (canon v) := by
  unfold deepCopy
  rw [parseJson_ser v]


/-! ## Navigator and mutator correspondence -/

theorem objLookup_objInsert (fs : List (String × Value)) (k : String) (v : Value) :
    objLookup (objInsert fs k v) k = some v := by
  induction fs with
  | nil => simp [objInsert, objLookup]
  | cons f fs ih =>
    obtain ⟨k', v'⟩ := f
    by_cases h : k' = k
    · simp [objInsert, h, objLookup]
    · simp [objInsert, h, objLookup, ih]

theorem objInsert_self {fs : List (String × Value)} {k : String} {c : Value}
    (h : objLookup fs k = some c) : objInsert fs k c = fs := by
  induction fs with
  | nil => simp [objLookup] at h
  | cons f fs ih =>
    obtain ⟨k', v'⟩ := f
    by_cases hk : k' = k
    · simp [objLookup, hk] at h
      simp [objInsert, hk, h]
    · simp [objLookup, hk] at h
      simp [objInsert, hk, ih h]

theorem getD_set_self {l : List Value} {n : Nat} (a d : Value) (h : n < l.length) :
    (l.set n a).getD n d = a := by
  induction l generalizing n with
  | nil => simp at h
  | cons x xs ih =>
    cases n with
    | zero => simp [List.set, List.getD]
    | succ m =>
      simp only [List.length_cons, Nat.succ_lt_succ_iff] at h
      simpa [List.set, List.getD] using ih h

theorem getElementLoop_iff :
    ∀ (targets : List String) (selector : Value) (path : List String) (v : Value),
    getElementLoop selector targets path = .ok v ↔ navigate selector targets = some v := by
  intro targets
  induction targets with
  | nil => intro s p v; simp [getElementLoop, navigate]
  | cons t ts ih =>
    intro s p v
    cases s
    case obj fs =>
      simp only [getElementLoop, getElementFromMap, navigate]
      cases h : objLookup fs t with
      | none => simp [Except.bind]
      | some c => simp [Except.bind, ih]
    case arr l =>
      simp only [getElementLoop, getElementFromArray, navigate]
      cases h : atoi t with
      | none => simp [Except.bind]
      | some i =>
        by_cases hi : i < 0 ∨ (l.length : Int) ≤ i
        · simp [hi, Except.bind]
        · simp [hi, Except.bind, ih]
    all_goals simp [getElementLoop, navigate]

theorem getElement_ok_iff {je : Value} {targets : List String} {v : Value} :
    getElement je targets = .ok v ↔ navigate je targets = some v :=
  getElementLoop_iff targets je [] v

theorem navigate_append (p : List String) : ∀ (T : Value) (q : List String),
    navigate T (p ++ q) = (navigate T p).bind (fun m => navigate m q) := by
  induction p with
  | nil => intro T q; simp [navigate]
  | cons t ts ih =>
    intro T q
    cases T
    case obj fs =>
      simp only [List.cons_append, navigate]
      cases objLookup fs t with
      | none => simp
      | some c => simp [ih]
    case arr l =>
      simp only [List.cons_append, navigate]
      cases atoi t with
      | none => simp
      | some i =>
        by_cases hi : i < 0 ∨ (l.length : Int) ≤ i
        · simp [hi]
        · simp [hi, ih]
    all_goals simp [navigate]

theorem strAppend_nil (a : String) : a ++ "" = a := by
  cases a with
  | mk d => show String.mk (d ++ []) = String.mk d; rw [List.append_nil]

theorem strAppend_assoc (a b c : String) : (a ++ b) ++ c = a ++ (b ++ c) := by
  cases a with | mk x => cases b with | mk y => cases c with | mk z =>
  show String.mk ((x ++ y) ++ z) = String.mk (x ++ (y ++ z))
  rw [List.append_assoc]

theorem navigate_setSubN : ∀ (p : List String) (T c : Value), navigate T p = some c →
    ∀ w, navigate (setSubN T p w) p = some w := by
  intro p
  induction p with
  | nil => intro T c _ w; simp [navigate, setSubN]
  | cons t ts ih =>
    intro T c hn w
    cases T
    case obj fs =>
      simp only [navigate] at hn
      cases hch : objLookup fs t with
      | none => simp [hch] at hn
      | some ch =>
        simp only [hch] at hn
        simp only [setSubN, navigate, childD, hch, Option.getD_some,
          objLookup_objInsert]
        exact ih ch c hn w
    case arr l =>
      simp only [navigate] at hn
      cases hi : atoi t with
      | none => simp [hi] at hn
      | some i =>
        simp only [hi] at hn
        by_cases hrange : i < 0 ∨ (l.length : Int) ≤ i
        · rw [if_pos hrange] at hn; exact absurd hn (by simp)
        · rw [if_neg hrange] at hn
          have hlt : i.toNat < l.length := by omega
          simp only [setSubN, navigate, childD, atoiIdx, hi, Option.getD_some,
            List.length_set]
          rw [if_neg hrange, getD_set_self _ _ hlt]
          exact ih _ c hn w
    all_goals (simp [navigate] at hn)

theorem setSubN_append : ∀ (q : List String) (T m : Value), navigate T q = some m →
    ∀ r w, setSubN T (q ++ r) w = setSubN T q (setSubN m r w) := by
  intro q
  induction q with
  | nil =>
    intro T m hn r w
    simp only [navigate, Option.some_inj] at hn
    subst hn
    simp [setSubN]
  | cons t ts ih =>
    intro T m hn r w
    cases T
    case obj fs =>
      simp only [navigate] at hn
      cases hch : objLookup fs t with
      | none => simp [hch] at hn
      | some ch =>
        simp only [hch] at hn
        simp only [List.cons_append, setSubN, childD, hch, Option.getD_some, List.append_eq]
        rw [ih ch m hn r w]
    case arr l =>
      simp only [navigate] at hn
      cases hi : atoi t with
      | none => simp [hi] at hn
      | some i =>
        simp only [hi] at hn
        by_cases hrange : i < 0 ∨ (l.length : Int) ≤ i
        · rw [if_pos hrange] at hn; exact absurd hn (by simp)
        · rw [if_neg hrange] at hn
          simp only [List.cons_append, setSubN, childD, atoiIdx, hi, Option.getD_some,
            List.append_eq]
          rw [ih _ m hn r w]
    all_goals (simp [navigate] at hn)

theorem liftDamage_navigate : ∀ (p : List String) (T c : Value), navigate T p = some c →
    (∀ v', liftDamage T p (.ok v') = .ok (setSubN T p v')) ∧
    (∀ e d, liftDamage T p (.err e d) = .err e (damageSubN T p d)) ∧
    (liftDamage T p .panicked = .panicked) := by
  intro p
  induction p with
  | nil =>
    intro T c _
    refine ⟨fun v' => ?_, fun e d => ?_, ?_⟩ <;> cases T <;> rfl
  | cons t ts ih =>
    intro T c hn
    cases T
    case obj fs =>
      simp only [navigate] at hn
      cases hch : objLookup fs t with
      | none => simp [hch] at hn
      | some ch =>
        simp only [hch] at hn
        obtain ⟨ihok, iherr, ihp⟩ := ih ch c hn
        refine ⟨fun v' => ?_, fun e d => ?_, ?_⟩
        · simp only [liftDamage, childD, hch, Option.getD_some, ihok, setSubN]
        · simp only [liftDamage, childD, hch, Option.getD_some, iherr, damageSubN,
            Option.isSome_some, if_true]
        · simp only [liftDamage, childD, hch, Option.getD_some, ihp]
    case arr l =>
      simp only [navigate] at hn
      cases hi : atoi t with
      | none => simp [hi] at hn
      | some i =>
        simp only [hi] at hn
        by_cases hrange : i < 0 ∨ (l.length : Int) ≤ i
        · rw [if_pos hrange] at hn; exact absurd hn (by simp)
        · rw [if_neg hrange] at hn
          obtain ⟨ihok, iherr, ihp⟩ := ih _ c hn
          refine ⟨fun v' => ?_, fun e d => ?_, ?_⟩
          · simp only [liftDamage, childD, atoiIdx, hi, Option.getD_some, ihok, setSubN]
          · simp only [liftDamage, childD, atoiIdx, hi, Option.getD_some, iherr, damageSubN]
          · simp only [liftDamage, childD, atoiIdx, hi, Option.getD_some, ihp]
    all_goals (simp [navigate] at hn)

theorem pathLoc_nil (v : Value) : pathLoc v [] = "" := by cases v <;> rfl

theorem liftDamage_nil (v : Value) (r : URes) : liftDamage v [] r = r := by
  cases v <;> cases r <;> rfl

theorem recUpdate_obj_nontail {fs : List (String × Value)} {t : String} {ch : Value}
    (hch : objLookup fs t = some ch) (opt : UpdateOption) (w : Value) (loc : String)
    (r0 : String) (rs : List String) (hrs : rs ≠ []) :
    recursiveUpdateElement opt (.obj fs) w t loc (r0 :: rs) =
      match recursiveUpdateElement opt ch w r0 (loc ++ "[\"" ++ t ++ "\"]") rs with
      | .ok u => .ok (.obj (objInsert fs t u))
      | .err e d => .err e (.obj (objInsert fs t d))
      | .panicked => .panicked := by
  rw [recursiveUpdateElement.eq_def]
  have hlen : ((r0 :: rs).length == 1) = false := by
    rw [beq_eq_false_iff_ne]
    simp only [List.length_cons]
    have : rs.length ≠ 0 := fun h => hrs (List.eq_nil_of_length_eq_zero h)
    omega
  simp only [hch, hlen, Option.isSome_some, Bool.not_true, Bool.false_and,
    Option.getD_some]
  cases recursiveUpdateElement opt ch w r0 (loc ++ "[\"" ++ t ++ "\"]") rs <;> simp

theorem recUpdate_arr_nontail {l : List Value} {t : String} {i : Int}
    (hi : atoi t = some i) (hrange : ¬(i < 0 ∨ (l.length : Int) ≤ i))
    (opt : UpdateOption) (w : Value) (loc : String) (r0 : String) (rs : List String)
    (hrs : rs ≠ []) :
    recursiveUpdateElement opt (.arr l) w t loc (r0 :: rs) =
      match recursiveUpdateElement opt (l.getD i.toNat .null) w r0 (loc ++ "[" ++ t ++ "]") rs with
      | .ok u => .ok (.arr (l.set i.toNat u))
      | .err e _ => .err e (.arr (l.set i.toNat .null))
      | .panicked => .panicked := by
  rw [recursiveUpdateElement.eq_def]
  have hlen : ((r0 :: rs).length == 1) = false := by
    rw [beq_eq_false_iff_ne]
    simp only [List.length_cons]
    have : rs.length ≠ 0 := fun h => hrs (List.eq_nil_of_length_eq_zero h)
    omega
  have hg : ¬(l.length = 0 ∨ (l.length : Int) ≤ i) := by omega
  have hneg : ¬(i < 0) := fun h => hrange (Or.inl h)
  simp only [hi, hlen, if_neg hg, if_neg hneg]
  cases recursiveUpdateElement opt (l.getD i.toNat .null) w r0 (loc ++ "[" ++ t ++ "]") rs <;>
    simp

theorem recUpdate_obj_tail_found {fs : List (String × Value)} {t : String} {ch : Value}
    (hch : objLookup fs t = some ch) (opt : UpdateOption) (w : Value) (loc : String)
    (x : String) :
    recursiveUpdateElement opt (.obj fs) w t loc [x] =
      updateTailMapElement opt fs w t (loc ++ "[\"" ++ t ++ "\"]") ch true := by
  rw [recursiveUpdateElement.eq_def]
  simp only [hch, Option.isSome_some, Bool.not_true, Bool.false_and, Option.getD_some,
    List.length_cons, List.length_nil]
  simp

theorem recUpdate_obj_tail_missing {fs : List (String × Value)} {t : String}
    (hch : objLookup fs t = none) (w : Value) (loc : String) (x : String) :
    recursiveUpdateElement .add (.obj fs) w t loc [x] =
      updateTailMapElement .add fs w t (loc ++ "[\"" ++ t ++ "\"]") .null false := by
  rw [recursiveUpdateElement.eq_def]
  simp only [hch, Option.isSome_none, Bool.not_false, Option.getD_none]
  simp

theorem recUpdate_obj_missing_err {fs : List (String × Value)} {t : String}
    (hch : objLookup fs t = none) (opt : UpdateOption)
    (hopt : opt = .set ∨ opt = .remove) (w : Value) (loc : String) (rem : List String) :
    recursiveUpdateElement opt (.obj fs) w t loc rem =
      .err (.keyNotFound (loc ++ "[\"" ++ t ++ "\"]")) (.obj fs) := by
  rw [recursiveUpdateElement.eq_def]
  have : (opt == UpdateOption.set || opt == UpdateOption.remove) = true := by
    rcases hopt with h | h <;> subst h <;> rfl
  simp [hch, this]

theorem recUpdate_arr_tail {l : List Value} {t : String} {i : Int}
    (hi : atoi t = some i) (hrange : ¬(i < 0 ∨ (l.length : Int) ≤ i))
    (opt : UpdateOption) (w : Value) (loc : String) (x : String) :
    recursiveUpdateElement opt (.arr l) w t loc [x] =
      updateTailArrayElement opt l w i.toNat (loc ++ "[" ++ t ++ "]") := by
  rw [recursiveUpdateElement.eq_def]
  have hg : ¬(l.length = 0 ∨ (l.length : Int) ≤ i) := by omega
  have hneg : ¬(i < 0) := fun h => hrange (Or.inl h)
  simp only [hi, if_neg hg, if_neg hneg, List.length_cons, List.length_nil]
  simp

theorem recUpdate_decompose : ∀ (p : List String) (T c : Value) (loc : String),
    navigate T p = some c → ∀ (opt : UpdateOption) (w : Value) (s0 : String) (ss : List String),
    recUpdateOn opt T w loc (p ++ s0 :: ss) =
      liftDamage T p (recUpdateOn opt c w (loc ++ pathLoc T p) (s0 :: ss)) := by
  intro p
  induction p with
  | nil =>
    intro T c loc hn opt w s0 ss
    simp only [navigate, Option.some_inj] at hn
    subst hn
    rw [List.nil_append, pathLoc_nil, strAppend_nil, liftDamage_nil]
  | cons t p' ih =>
    intro T c loc hn opt w s0 ss
    cases T
    case obj fs =>
      simp only [navigate] at hn
      cases hch : objLookup fs t with
      | none => simp [hch] at hn
      | some ch =>
        simp only [hch] at hn
        cases p' with
        | nil =>
          simp only [navigate, Option.some_inj] at hn
          subst hn
          show recursiveUpdateElement opt (.obj fs) w t loc ((([] ++ s0 :: ss)) ++ [""]) = _
          rw [List.nil_append, List.cons_append,
            recUpdate_obj_nontail hch opt w loc s0 (ss ++ [""]) (by simp)]
          simp only [liftDamage, childD, hch, Option.getD_some, liftDamage_nil,
            Option.isSome_some, if_true, pathLoc, stepLoc, pathLoc_nil, strAppend_nil]
          simp only [strAppend_assoc, recUpdateOn]
        | cons t2 p'' =>
          show recursiveUpdateElement opt (.obj fs) w t loc
            ((((t2 :: p'') ++ s0 :: ss)) ++ [""]) = _
          rw [List.cons_append, List.cons_append,
            recUpdate_obj_nontail hch opt w loc t2 ((p'' ++ s0 :: ss) ++ [""]) (by simp)]
          have hinner : recursiveUpdateElement opt ch w t2 (loc ++ "[\"" ++ t ++ "\"]")
              ((p'' ++ s0 :: ss) ++ [""]) =
              recUpdateOn opt ch w (loc ++ "[\"" ++ t ++ "\"]") ((t2 :: p'') ++ s0 :: ss) := by
            rw [List.cons_append]
            rfl
          rw [hinner, ih ch c (loc ++ "[\"" ++ t ++ "\"]") hn opt w s0 ss]
          simp only [liftDamage, childD, hch, Option.getD_some, Option.isSome_some, if_true,
            pathLoc, stepLoc]
          simp only [strAppend_assoc]
    case arr l =>
      simp only [navigate] at hn
      cases hi : atoi t with
      | none => simp [hi] at hn
      | some i =>
        simp only [hi] at hn
        by_cases hrange : i < 0 ∨ (l.length : Int) ≤ i
        · rw [if_pos hrange] at hn; exact absurd hn (by simp)
        · rw [if_neg hrange] at hn
          cases p' with
          | nil =>
            simp only [navigate, Option.some_inj] at hn
            subst hn
            show recursiveUpdateElement opt (.arr l) w t loc ((([] ++ s0 :: ss)) ++ [""]) = _
            rw [List.nil_append, List.cons_append,
              recUpdate_arr_nontail hi hrange opt w loc s0 (ss ++ [""]) (by simp)]
            simp only [liftDamage, childD, atoiIdx, hi, Option.getD_some, liftDamage_nil,
              pathLoc, stepLoc, pathLoc_nil, strAppend_nil]
            simp only [strAppend_assoc, recUpdateOn]
          | cons t2 p'' =>
            show recursiveUpdateElement opt (.arr l) w t loc
              ((((t2 :: p'') ++ s0 :: ss)) ++ [""]) = _
            rw [List.cons_append, List.cons_append,
              recUpdate_arr_nontail hi hrange opt w loc t2 ((p'' ++ s0 :: ss) ++ [""]) (by simp)]
            have hinner : recursiveUpdateElement opt (l.getD i.toNat .null) w t2
                (loc ++ "[" ++ t ++ "]") ((p'' ++ s0 :: ss) ++ [""]) =
                recUpdateOn opt (l.getD i.toNat .null) w (loc ++ "[" ++ t ++ "]")
                  ((t2 :: p'') ++ s0 :: ss) := by
              rw [List.cons_append]
              rfl
            rw [hinner, ih (l.getD i.toNat .null) c (loc ++ "[" ++ t ++ "]") hn opt w s0 ss]
            simp only [liftDamage, childD, atoiIdx, hi, Option.getD_some, pathLoc, stepLoc]
            simp only [strAppend_assoc]
    all_goals (simp [navigate] at hn)

theorem setSubN_nil (v w : Value) : setSubN v [] w = w := by cases v <;> rfl

theorem updateTailMapElement_set (fs : List (String × Value)) (w' : Value)
    (k loc : String) (ch : Value) (ex : Bool) :
    updateTailMapElement .set fs w' k loc ch ex = .ok (.obj (objInsert fs k w')) := by
  unfold updateTailMapElement
  cases ch <;> simp

theorem updateTailMapElement_remove (fs : List (String × Value)) (w' : Value)
    (k loc : String) (ch : Value) (ex : Bool) :
    updateTailMapElement .remove fs w' k loc ch ex = .ok (.obj (objErase fs k)) := by
  unfold updateTailMapElement
  cases ch <;> simp

theorem updateTailMapElement_add_absent (fs : List (String × Value)) (w' : Value)
    (k loc : String) (ch : Value) :
    updateTailMapElement .add fs w' k loc ch false = .ok (.obj (objInsert fs k w')) := by
  unfold updateTailMapElement
  cases ch <;> simp

theorem updateTailMapElement_add_arr (fs : List (String × Value)) (w' : Value)
    (k loc : String) (a : List Value) :
    updateTailMapElement .add fs w' k loc (.arr a) true =
      .ok (.obj (objInsert fs k (.arr (a ++ [w'])))) := by
  unfold updateTailMapElement
  simp

theorem updateTailMapElement_add_exists_nonarr (fs : List (String × Value)) (w' : Value)
    (k loc : String) (ch : Value) (hc : ∀ a, ch ≠ .arr a) :
    updateTailMapElement .add fs w' k loc ch true = .err (.alreadyExists loc) (.obj fs) := by
  unfold updateTailMapElement
  cases ch with
  | arr a => exact absurd rfl (hc a)
  | _ => simp

theorem updateTailArrayElement_set (l : List Value) (w' : Value) (n : Nat) (loc : String) :
    updateTailArrayElement .set l w' n loc = .ok (.arr (l.set n w')) := by
  unfold updateTailArrayElement
  cases l.getD n .null <;> simp

theorem updateTailArrayElement_remove (l : List Value) (w' : Value) (n : Nat) (loc : String) :
    updateTailArrayElement .remove l w' n loc =
      .ok (.arr (l.take n ++ l.drop (n + 1))) := by
  unfold updateTailArrayElement
  cases l.getD n .null <;> simp

theorem updateElement_decompose {T c : Value} {p : List String} (hn : navigate T p = some c)
    (opt : UpdateOption) (w : Value) (s0 : String) (ss : List String) :
    updateElement T opt w (p ++ s0 :: ss) =
      liftDamage T p (recUpdateOn opt c (canon w) ("JSON" ++ pathLoc T p) (s0 :: ss)) := by
  unfold updateElement
  rw [deepCopy_eq]
  cases p with
  | nil =>
    simp only [navigate, Option.some_inj] at hn
    subst hn
    rw [pathLoc_nil, strAppend_nil, liftDamage_nil]
    rfl
  | cons t p' =>
    show recursiveUpdateElement opt T (canon w) t "JSON" ((p' ++ s0 :: ss) ++ [""]) = _
    have h : recursiveUpdateElement opt T (canon w) t "JSON" ((p' ++ s0 :: ss) ++ [""]) =
        recUpdateOn opt T (canon w) "JSON" ((t :: p') ++ s0 :: ss) := by
      rw [List.cons_append]
      rfl
    rw [h, recUpdate_decompose (t :: p') T c "JSON" hn opt (canon w) s0 ss]

theorem recUpdateOn_set_single {m c : Value} {k : String} (hn : navigate m [k] = some c)
    (w' : Value) (loc : String) :
    recUpdateOn .set m w' loc [k] = .ok (setSubN m [k] w') := by
  cases m
  case obj fs =>
    simp only [navigate] at hn
    cases hch : objLookup fs k with
    | none => simp [hch] at hn
    | some ch =>
      show recursiveUpdateElement .set (.obj fs) w' k loc [""] = _
      rw [recUpdate_obj_tail_found hch .set w' loc "", updateTailMapElement_set]
      simp [setSubN, setSubN_nil, childD, hch]
  case arr l =>
    simp only [navigate] at hn
    cases hi : atoi k with
    | none => simp [hi] at hn
    | some i =>
      simp only [hi] at hn
      by_cases hrange : i < 0 ∨ (l.length : Int) ≤ i
      · rw [if_pos hrange] at hn; exact absurd hn (by simp)
      · show recursiveUpdateElement .set (.arr l) w' k loc [""] = _
        rw [recUpdate_arr_tail hi hrange .set w' loc "", updateTailArrayElement_set]
        simp [setSubN, setSubN_nil, childD, atoiIdx, hi]
  all_goals simp [navigate] at hn

theorem recUpdateOn_remove_single_obj {fs : List (String × Value)} {k : String} {c : Value}
    (hch : objLookup fs k = some c) (w' : Value) (loc : String) :
    recUpdateOn .remove (.obj fs) w' loc [k] = .ok (.obj (objErase fs k)) := by
  show recursiveUpdateElement .remove (.obj fs) w' k loc [""] = _
  rw [recUpdate_obj_tail_found hch .remove w' loc "", updateTailMapElement_remove]

theorem recUpdateOn_remove_single_arr {l : List Value} {k : String} {i : Int}
    (hi : atoi k = some i) (hrange : ¬(i < 0 ∨ (l.length : Int) ≤ i)) (w' : Value)
    (loc : String) :
    recUpdateOn .remove (.arr l) w' loc [k] =
      .ok (.arr (l.take i.toNat ++ l.drop (i.toNat + 1))) := by
  show recursiveUpdateElement .remove (.arr l) w' k loc [""] = _
  rw [recUpdate_arr_tail hi hrange .remove w' loc "", updateTailArrayElement_remove]

theorem recUpdateOn_add_single_obj_absent {fs : List (String × Value)} {k : String}
    (hch : objLookup fs k = none) (w' : Value) (loc : String) :
    recUpdateOn .add (.obj fs) w' loc [k] = .ok (.obj (objInsert fs k w')) := by
  show recursiveUpdateElement .add (.obj fs) w' k loc [""] = _
  rw [recUpdate_obj_tail_missing hch w' loc "", updateTailMapElement_add_absent]

theorem recUpdateOn_add_single_obj_arr {fs : List (String × Value)} {k : String}
    {a : List Value} (hch : objLookup fs k = some (.arr a)) (w' : Value) (loc : String) :
    recUpdateOn .add (.obj fs) w' loc [k] = .ok (.obj (objInsert fs k (.arr (a ++ [w'])))) := by
  show recursiveUpdateElement .add (.obj fs) w' k loc [""] = _
  rw [recUpdate_obj_tail_found hch .add w' loc "", updateTailMapElement_add_arr]

theorem recUpdateOn_add_single_obj_nonarr {fs : List (String × Value)} {k : String}
    {c : Value} (hch : objLookup fs k = some c) (hc : ∀ a, c ≠ .arr a) (w' : Value)
    (loc : String) :
    recUpdateOn .add (.obj fs) w' loc [k] =
      .err (.alreadyExists (loc ++ "[\"" ++ k ++ "\"]")) (.obj fs) := by
  show recursiveUpdateElement .add (.obj fs) w' k loc [""] = _
  rw [recUpdate_obj_tail_found hch .add w' loc "",
    updateTailMapElement_add_exists_nonarr fs w' k _ c hc]

theorem SetElement_ok {T : Value} {p : List String} {c : Value}
    (hn : navigate T p = some c) (w : Value) :
    SetElement T w p = .ok (setSubN T p (canon w)) := by
  rcases List.eq_nil_or_concat p with hp | ⟨q, k, hp⟩
  · subst hp
    show updateElement T .set w [] = _
    unfold updateElement
    rw [deepCopy_eq]
    cases T <;> rfl
  · subst hp
    rw [List.concat_eq_append] at hn ⊢
    rw [navigate_append] at hn
    cases hq : navigate T q with
    | none => rw [hq] at hn; exact absurd hn (by simp)
    | some m =>
      rw [hq] at hn
      simp only [Option.some_bind] at hn
      show updateElement T .set w (q ++ [k]) = _
      rw [updateElement_decompose hq .set w k [],
        recUpdateOn_set_single hn (canon w) ("JSON" ++ pathLoc T q),
        (liftDamage_navigate q T m hq).1, setSubN_append q T m hq [k] (canon w)]

theorem recUpdate_scalar {T : Value} (h1 : ∀ fs, T ≠ .obj fs) (h2 : ∀ l, T ≠ .arr l)
    (opt : UpdateOption) (w : Value) (t loc : String) (rem : List String) :
    recursiveUpdateElement opt T w t loc rem = .err (.elemNotFoundAt t loc) T := by
  cases T
  case obj fs => exact absurd rfl (h1 fs)
  case arr l => exact absurd rfl (h2 l)
  all_goals rw [recursiveUpdateElement.eq_def]

theorem recUpdate_arr_atoiFail {l : List Value} {t : String} (hi : atoi t = none)
    (opt : UpdateOption) (w : Value) (loc : String) (rem : List String) :
    recursiveUpdateElement opt (.arr l) w t loc rem =
      .err (.notValidIndexInt (loc ++ "[" ++ t ++ "]") (atoiErrMsg t)) (.arr l) := by
  rw [recursiveUpdateElement.eq_def]
  simp [hi]

theorem recUpdate_arr_outOfRange {l : List Value} {t : String} {i : Int}
    (hi : atoi t = some i) (hr : l.length = 0 ∨ (l.length : Int) ≤ i)
    (opt : UpdateOption) (w : Value) (loc : String) (rem : List String) :
    recursiveUpdateElement opt (.arr l) w t loc rem =
      .err (.invalidIndex (loc ++ "[" ++ t ++ "]")) (.arr l) := by
  rw [recursiveUpdateElement.eq_def]
  simp only [hi]
  rw [if_pos hr]

theorem recUpdate_arr_neg {l : List Value} {t : String} {i : Int}
    (hi : atoi t = some i) (hneg : i < 0)
    (hr : ¬(l.length = 0 ∨ (l.length : Int) ≤ i))
    (opt : UpdateOption) (w : Value) (loc : String) (rem : List String) :
    recursiveUpdateElement opt (.arr l) w t loc rem = .panicked := by
  rw [recursiveUpdateElement.eq_def]
  simp only [hi]
  rw [if_neg hr, if_pos hneg]

theorem updateTailArrayElement_add_arr {l : List Value} {n : Nat} {a : List Value}
    (hc : l.getD n .null = .arr a) (w' : Value) (loc : String) :
    updateTailArrayElement .add l w' n loc = .ok (.arr (l.set n (.arr (a ++ [w'])))) := by
  unfold updateTailArrayElement
  rw [hc]
  simp

theorem updateTailArrayElement_add_nonarr {l : List Value} {n : Nat}
    (hc : ∀ a, l.getD n .null ≠ .arr a) (w' : Value) (loc : String) :
    updateTailArrayElement .add l w' n loc = .err (.cannotUpdate loc) (.arr l) := by
  unfold updateTailArrayElement
  cases hg : l.getD n .null with
  | arr a => exact absurd hg (hc a)
  | _ => simp

theorem recUpdate_obj_missing_add_nontail {fs : List (String × Value)} {t : String}
    (hch : objLookup fs t = none) (w : Value) (loc r0 : String) (rs0 : List String)
    (hrs : rs0 ≠ []) :
    recursiveUpdateElement .add (.obj fs) w t loc (r0 :: rs0) =
      .err (.elemNotFoundAt r0 (loc ++ "[\"" ++ t ++ "\"]")) (.obj fs) := by
  rw [recursiveUpdateElement.eq_def]
  have hlen : ((r0 :: rs0).length == 1) = false := by
    rw [beq_eq_false_iff_ne]
    simp only [List.length_cons]
    have : rs0.length ≠ 0 := fun h => hrs (List.eq_nil_of_length_eq_zero h)
    omega
  have hinner : recursiveUpdateElement .add Value.null w r0 (loc ++ "[\"" ++ t ++ "\"]") rs0 =
      .err (.elemNotFoundAt r0 (loc ++ "[\"" ++ t ++ "\"]")) Value.null :=
    recUpdate_scalar (fun _ h => Value.noConfusion h) (fun _ h => Value.noConfusion h) _ _ _ _ _
  simp [hch, hlen, hinner]
  intro h
  exact absurd h hrs

theorem recUpdate_err_shape : ∀ (rem : List String) (opt : UpdateOption) (T w : Value)
    (t loc : String) (e : GoErr) (D : Value),
    recursiveUpdateElement opt T w t loc rem = .err e D →
    D = T ∨ ∃ q rr, q ++ rr = t :: rem ∧ q ≠ [] ∧ rr ≠ [] ∧
      objOnlyPath T q = false ∧ D = setSubN T q .null := by
  intro rem
  induction rem with
  | nil =>
    intro opt T w t loc e D h
    cases T
    case obj fs =>
      cases hch : objLookup fs t with
      | some ch =>
        rw [recursiveUpdateElement.eq_def] at h
        simp [hch] at h
      | none =>
        cases opt with
        | add =>
          rw [recursiveUpdateElement.eq_def] at h
          simp [hch] at h
        | set =>
          rw [recUpdate_obj_missing_err hch .set (Or.inl rfl) w loc []] at h
          injection h with he hD
          exact Or.inl hD.symm
        | remove =>
          rw [recUpdate_obj_missing_err hch .remove (Or.inr rfl) w loc []] at h
          injection h with he hD
          exact Or.inl hD.symm
    case arr l =>
      cases hi : atoi t with
      | none =>
        rw [recUpdate_arr_atoiFail hi] at h
        injection h with he hD
        exact Or.inl hD.symm
      | some i =>
        by_cases hr : l.length = 0 ∨ (l.length : Int) ≤ i
        · rw [recUpdate_arr_outOfRange hi hr] at h
          injection h with he hD
          exact Or.inl hD.symm
        · by_cases hneg : i < 0
          · rw [recUpdate_arr_neg hi hneg hr] at h
            exact absurd h (by simp)
          · rw [recursiveUpdateElement.eq_def] at h
            simp only [hi] at h
            rw [if_neg hr, if_neg hneg] at h
            simp at h
    all_goals
      (rw [recUpdate_scalar (fun _ h' => Value.noConfusion h')
        (fun _ h' => Value.noConfusion h')] at h
       injection h with he hD
       exact Or.inl hD.symm)
  | cons r0 rs ih =>
    intro opt T w t loc e D h
    cases T
    case obj fs =>
      cases hch : objLookup fs t with
      | none =>
        cases rs with
        | nil =>
          cases opt with
          | add =>
            rw [recUpdate_obj_tail_missing hch w loc r0, updateTailMapElement_add_absent] at h
            exact absurd h (by simp)
          | set =>
            rw [recUpdate_obj_missing_err hch .set (Or.inl rfl) w loc [r0]] at h
            injection h with he hD
            exact Or.inl hD.symm
          | remove =>
            rw [recUpdate_obj_missing_err hch .remove (Or.inr rfl) w loc [r0]] at h
            injection h with he hD
            exact Or.inl hD.symm
        | cons r1 rs' =>
          cases opt with
          | add =>
            rw [recUpdate_obj_missing_add_nontail hch w loc r0 (r1 :: rs') (by simp)] at h
            injection h with he hD
            exact Or.inl hD.symm
          | set =>
            rw [recUpdate_obj_missing_err hch .set (Or.inl rfl) w loc (r0 :: r1 :: rs')] at h
            injection h with he hD
            exact Or.inl hD.symm
          | remove =>
            rw [recUpdate_obj_missing_err hch .remove (Or.inr rfl) w loc (r0 :: r1 :: rs')] at h
            injection h with he hD
            exact Or.inl hD.symm
      | some ch =>
        cases rs with
        | nil =>
          rw [recUpdate_obj_tail_found hch opt w loc r0] at h
          cases opt with
          | set => rw [updateTailMapElement_set] at h; exact absurd h (by simp)
          | remove => rw [updateTailMapElement_remove] at h; exact absurd h (by simp)
          | add =>
            by_cases harr : ∃ a, ch = Value.arr a
            · obtain ⟨a, rfl⟩ := harr
              rw [updateTailMapElement_add_arr] at h
              exact absurd h (by simp)
            · rw [updateTailMapElement_add_exists_nonarr fs w t _ ch
                (fun a h' => harr ⟨a, h'⟩)] at h
              injection h with he hD
              exact Or.inl hD.symm
        | cons r1 rs' =>
          rw [recUpdate_obj_nontail hch opt w loc r0 (r1 :: rs') (by simp)] at h
          cases hres : recursiveUpdateElement opt ch w r0 (loc ++ "[\"" ++ t ++ "\"]")
            (r1 :: rs') with
          | ok u => rw [hres] at h; exact absurd h (by simp)
          | panicked => rw [hres] at h; exact absurd h (by simp)
          | err e' d =>
            rw [hres] at h
            injection h with he hD
            rcases ih opt ch w r0 (loc ++ "[\"" ++ t ++ "\"]") e' d hres with hd |
              ⟨q', rr', hqrr, hq', hrr', hop, hd⟩
            · subst hd
              exact Or.inl (by rw [← hD, objInsert_self hch])
            · refine Or.inr ⟨t :: q', rr', by simp [hqrr], by simp, hrr', ?_, ?_⟩
              · simp only [objOnlyPath, childD, hch, Option.getD_some]
                exact hop
              · rw [← hD, hd]
                simp [setSubN, childD, hch]
    case arr l =>
      cases hi : atoi t with
      | none =>
        rw [recUpdate_arr_atoiFail hi] at h
        injection h with he hD
        exact Or.inl hD.symm
      | some i =>
        by_cases hr : l.length = 0 ∨ (l.length : Int) ≤ i
        · rw [recUpdate_arr_outOfRange hi hr] at h
          injection h with he hD
          exact Or.inl hD.symm
        · by_cases hneg : i < 0
          · rw [recUpdate_arr_neg hi hneg hr] at h
            exact absurd h (by simp)
          · have hrange : ¬(i < 0 ∨ (l.length : Int) ≤ i) := by omega
            cases rs with
            | nil =>
              rw [recUpdate_arr_tail hi hrange opt w loc r0] at h
              cases opt with
              | set => rw [updateTailArrayElement_set] at h; exact absurd h (by simp)
              | remove => rw [updateTailArrayElement_remove] at h; exact absurd h (by simp)
              | add =>
                by_cases harr : ∃ a, l.getD i.toNat Value.null = Value.arr a
                · obtain ⟨a, ha⟩ := harr
                  rw [updateTailArrayElement_add_arr ha] at h
                  exact absurd h (by simp)
                · rw [updateTailArrayElement_add_nonarr
                    (fun a h' => harr ⟨a, h'⟩)] at h
                  injection h with he hD
                  exact Or.inl hD.symm
            | cons r1 rs' =>
              rw [recUpdate_arr_nontail hi hrange opt w loc r0 (r1 :: rs') (by simp)] at h
              cases hres : recursiveUpdateElement opt (l.getD i.toNat Value.null) w r0
                (loc ++ "[" ++ t ++ "]") (r1 :: rs') with
              | ok u => rw [hres] at h; exact absurd h (by simp)
              | panicked => rw [hres] at h; exact absurd h (by simp)
              | err e' d =>
                rw [hres] at h
                injection h with he hD
                refine Or.inr ⟨[t], r0 :: r1 :: rs', rfl, by simp, by simp, rfl, ?_⟩
                rw [← hD]
                simp [setSubN, setSubN_nil, childD, atoiIdx, hi]
    all_goals
      (rw [recUpdate_scalar (fun _ h' => Value.noConfusion h')
        (fun _ h' => Value.noConfusion h')] at h
       injection h with he hD
       exact Or.inl hD.symm)

theorem objOnlyPath_ofAppend : ∀ (a : List String) (T : Value) (b : List String),
    objOnlyPath T (a ++ b) = true → objOnlyPath T a = true := by
  intro a
  induction a with
  | nil => intro T b _; cases T <;> rfl
  | cons t ts ih =>
    intro T b h
    cases T
    case obj fs =>
      simp only [List.cons_append, objOnlyPath] at h ⊢
      exact ih _ _ h
    case arr l => simp [objOnlyPath] at h
    all_goals rfl

theorem append_singleton_prefix {q rr A : List String} {x : String}
    (h : q ++ rr = A ++ [x]) (hrr : rr ≠ []) : ∃ rr2, q ++ rr2 = A := by
  have hlen : q.length + rr.length = A.length + 1 := by
    have := congrArg List.length h
    simpa [List.length_append] using this
  have hq : q.length ≤ A.length := by
    have h1 : 1 ≤ rr.length := by
      cases rr with
      | nil => exact absurd rfl hrr
      | cons y ys => simp
    omega
  have h1 : q = A.take q.length := by
    have h2 := congrArg (List.take q.length) h
    rwa [List.take_left, List.take_append_of_le_length hq] at h2
  obtain ⟨n, h1⟩ : ∃ n, q = A.take n := ⟨q.length, h1⟩
  refine ⟨A.drop n, ?_⟩
  rw [h1, List.take_append_drop]

theorem updateElement_err_shape {T w : Value} {opt : UpdateOption} {targets : List String}
    {e : GoErr} {D : Value} (h : updateElement T opt w targets = .err e D) :
    D = T ∨ ∃ q rr, q ++ rr = targets ∧ q ≠ [] ∧ objOnlyPath T q = false ∧
      D = setSubN T q .null := by
  unfold updateElement at h
  rw [deepCopy_eq] at h
  cases targets with
  | nil =>
    cases T <;> cases opt <;> simp [updateTopLevelElement] at h <;> exact Or.inl h.2.symm
  | cons t0 rest =>
    rcases recUpdate_err_shape (rest ++ [""]) opt T (canon w) t0 "JSON" e D h with h1 |
      ⟨q, rr, hqrr, hq, hrr, hop, hD⟩
    · exact Or.inl h1
    · have hqrr' : q ++ rr = (t0 :: rest) ++ [""] := by simpa using hqrr
      obtain ⟨rr2, hpre⟩ := append_singleton_prefix hqrr' hrr
      exact Or.inr ⟨q, rr2, hpre, hq, hop, hD⟩

theorem updateElement_err_objOnly {T w : Value} {opt : UpdateOption}
    {targets : List String} {e : GoErr} {D : Value}
    (h : updateElement T opt w targets = .err e D)
    (hobj : objOnlyPath T targets = true) : D = T := by
  rcases updateElement_err_shape h with h1 | ⟨q, rr, hqrr, hq, hop, hD⟩
  · exact h1
  · rw [← hqrr] at hobj
    rw [objOnlyPath_ofAppend q T rr hobj] at hop
    exact absurd hop (by simp)

theorem noCtl_append {a b : List Char} :
    noCtl (a ++ b) = (noCtl a && noCtl b) := by
  simp [noCtl, List.all_append]

theorem noCtl_cons {c : Char} {l : List Char} :
    noCtl (c :: l) = (decide (32 ≤ charCode c) && noCtl l) := rfl

theorem noCtl_hexDigitChar {m : Nat} (hm : m < 16) : 32 ≤ charCode (hexDigitChar m) := by
  unfold hexDigitChar
  split
  · rw [charCode_ofNat_valid (by omega)]; omega
  · rw [charCode_ofNat_valid (by omega)]; omega

theorem noCtl_escChar (c : Char) : noCtl (escChar c) = true := by
  unfold escChar
  split
  · decide
  · split
    · decide
    · split
      · decide
      · split
        · decide
        · split
          · decide
          · split
            · rename_i hlt
              simp only [noCtl, List.all_cons, List.all_nil, Bool.and_true,
                Bool.and_eq_true, decide_eq_true_eq]
              refine ⟨by decide, by decide, by decide, by decide, ?_, ?_⟩
              · exact noCtl_hexDigitChar (by omega)
              · exact noCtl_hexDigitChar (by omega)
            · rename_i hge
              simp only [noCtl, List.all_cons, List.all_nil, Bool.and_true,
                decide_eq_true_eq]
              omega

theorem noCtl_escList_escChar : ∀ l : List Char, noCtl (escList escChar l) = true := by
  intro l
  induction l with
  | nil => rfl
  | cons c cs ih =>
    show noCtl (escChar c ++ escList escChar cs) = true
    rw [noCtl_append, noCtl_escChar, ih]
    rfl

theorem noCtl_jsonQuoteChars (s : List Char) : noCtl (jsonQuoteChars s) = true := by
  show noCtl ('"' :: (escList escChar s ++ ['"'])) = true
  simp only [noCtl_cons, noCtl_append, noCtl_escList_escChar s]
  decide

theorem noCtl_digitChar {n : Nat} (hn : n < 10) : 32 ≤ charCode (digitChar n) := by
  unfold digitChar
  rw [charCode_ofNat_valid (by omega)]
  omega

theorem noCtl_natCharsAux : ∀ f n, noCtl (natCharsAux f n) = true := by
  intro f
  induction f with
  | zero => intro n; rfl
  | succ f ih =>
    intro n
    unfold natCharsAux
    split
    · rename_i h
      simp only [noCtl, List.all_cons, List.all_nil, Bool.and_true, decide_eq_true_eq]
      exact noCtl_digitChar h
    · rw [noCtl_append]
      have h2 : noCtl [digitChar (n % 10)] = true := by
        simp only [noCtl, List.all_cons, List.all_nil, Bool.and_true, decide_eq_true_eq]
        exact noCtl_digitChar (Nat.mod_lt n (by omega))
      rw [ih, h2]
      rfl

theorem noCtl_intChars (n : Int) : noCtl (intChars n) = true := by
  unfold intChars
  split
  · rw [noCtl_cons]
    have := noCtl_natCharsAux (n.natAbs + 1) n.natAbs
    show (decide (32 ≤ charCode '-') && noCtl (natChars n.natAbs)) = true
    rw [show noCtl (natChars n.natAbs) = true from this]
    decide
  · exact noCtl_natCharsAux _ _

mutual
theorem noCtl_serRaw (w : Value) : noCtl (serRaw w) = true := by
  cases w with
  | null => decide
  | bool b => cases b <;> decide
  | num n => exact noCtl_intChars n
  | str s => exact noCtl_jsonQuoteChars s.data
  | arr vs =>
    cases vs with
    | nil => decide
    | cons v vs =>
      show noCtl ('[' :: ((serRaw v ++ serArrRest vs) ++ [']'])) = true
      simp only [noCtl_cons, noCtl_append, noCtl_serRaw v, noCtl_serArrRest vs]
      decide
  | obj fs =>
    cases fs with
    | nil => decide
    | cons f0 fs =>
      obtain ⟨k, v⟩ := f0
      show noCtl (lCurly :: (((jsonQuoteChars k.data ++ ':' :: serRaw v) ++ serObjRest fs)
        ++ [rCurly])) = true
      simp only [noCtl_cons, noCtl_append, noCtl_serRaw v, noCtl_serObjRest fs,
        noCtl_jsonQuoteChars k.data]
      decide

theorem noCtl_serArrRest (vs : List Value) : noCtl (serArrRest vs) = true := by
  cases vs with
  | nil => rfl
  | cons v vs =>
    show noCtl ((',' :: serRaw v) ++ serArrRest vs) = true
    simp only [noCtl_cons, noCtl_append, noCtl_serRaw v, noCtl_serArrRest vs]
    decide

theorem noCtl_serObjRest (fs : List (String × Value)) : noCtl (serObjRest fs) = true := by
  cases fs with
  | nil => rfl
  | cons f0 fs =>
    obtain ⟨k, v⟩ := f0
    show noCtl ((',' :: (jsonQuoteChars k.data ++ ':' :: serRaw v)) ++ serObjRest fs) = true
    simp only [noCtl_cons, noCtl_append, noCtl_serRaw v, noCtl_serObjRest fs,
      noCtl_jsonQuoteChars k.data]
    decide
end

theorem noCtl_ser (v : Value) : noCtl (ser v).data = true := noCtl_serRaw (canon v)

theorem parseJson_goQuote (s : String) (h : quoteSafeB s.data = true) :
    parseJson (goQuote s) = some (.str s) := by
  show (match parseV ((goQuote s).data.length + 1) (goQuote s).data with
    | some (v, []) => some v | _ => none) = some (.str s)
  have hdata : (goQuote s).data = '"' :: (escList goQuoteChar s.data ++ ['"']) := rfl
  rw [hdata]
  rw [parseV.eq_def]
  simp only []
  have hbody : escList goQuoteChar s.data ++ ['"'] =
      escList goQuoteChar s.data ++ '"' :: [] := rfl
  rw [hbody, parseStrBody_goQuote s.data [] h]
  simp [strMk_data]

theorem ser_ne_empty (v : Value) : ser v ≠ "" := by
  obtain ⟨c, t, hh, _⟩ := serRaw_head (canon v)
  intro h
  have h2 : serRaw (canon v) = [] := congrArg String.data h
  rw [hh] at h2
  exact List.noConfusion h2

theorem ser_str_ne_quotes {s : String} (hs : s ≠ "") : ser (.str s) ≠ "\"\"" := by
  intro h
  have hd : s.data ≠ [] := fun h0 => hs (strEq_of_dataEq h0)
  have h2 : jsonQuoteChars s.data = ['\"', '\"'] := congrArg String.data h
  have h3 : (jsonQuoteChars s.data).length = 2 := by rw [h2]; rfl
  have h4 : 1 ≤ s.data.length := by
    cases hsd : s.data with
    | nil => exact absurd hsd hd
    | cons c cs => simp
  have h5 := length_le_escList s.data
  simp only [jsonQuoteChars, List.length_cons, List.length_append, List.length_nil] at h3
  omega

theorem ser_canon (v : Value) : ser (canon v) = ser v := by
  unfold ser
  rw [canon_canon]

theorem escape_element_ok {T v : Value} {p : List String} (hn : navigate T p = some v)
    (hne : ser v ≠ "\"\"") (hqs : quoteSafeB (ser v).data = true) :
    EscapeElement T p = .ok (setSubN T p (.str (ser v))) := by
  unfold EscapeElement
  have hge : getElement T p = .ok v := getElement_ok_iff.mpr hn
  simp only [hge]
  rw [if_neg hne]
  simp only [parseJson_goQuote (ser v) hqs]
  rw [SetElement_ok hn (.str (ser v))]
  rfl

theorem escape_element_noop {T v : Value} {p : List String} (hn : navigate T p = some v)
    (heq : ser v = "\"\"") : EscapeElement T p = .ok T := by
  unfold EscapeElement
  have hge : getElement T p = .ok v := getElement_ok_iff.mpr hn
  simp only [hge]
  rw [if_pos heq]

theorem unescape_element_noop {T v : Value} {p : List String} (hn : navigate T p = some v)
    (heq : ser v = "\"\"") : UnescapeElement T p = .ok T := by
  unfold UnescapeElement
  have hge : getElement T p = .ok v := getElement_ok_iff.mpr hn
  simp only [hge]
  rw [if_pos heq]

theorem unescape_element_ok {T : Value} {p : List String} {s : String}
    (hn : navigate T p = some (.str s)) (hne : ser (.str s) ≠ "\"\"")
    {u : Value} (hparse : parseJson s = some u) :
    UnescapeElement T p = .ok (setSubN T p (canon u)) := by
  unfold UnescapeElement
  have hge : getElement T p = .ok (.str s) := getElement_ok_iff.mpr hn
  simp only [hge]
  rw [if_neg hne]
  have hun : goUnquote (ser (.str s)) = some s := by
    show goUnquote ⟨jsonQuoteChars s.data⟩ = some s
    rw [goUnquote_jsonQuote s.data, strMk_data]
  simp only [hun, hparse]
  rw [SetElement_ok hn u]

theorem escape_unescape_roundTrip {T v : Value} {p : List String}
    (hn : navigate T p = some v) (hqs : quoteSafeB (ser v).data = true) :
    ∃ T1 T2 v2, EscapeElement T p = .ok T1 ∧ UnescapeElement T1 p = .ok T2 ∧
      navigate T2 p = some v2 ∧ ser v2 = ser v := by
  by_cases hq : ser v = "\"\""
  · exact ⟨T, T, v, escape_element_noop hn hq, unescape_element_noop hn hq, hn, rfl⟩
  · have hn1 : navigate (setSubN T p (.str (ser v))) p = some (.str (ser v)) :=
      navigate_setSubN p T v hn (.str (ser v))
    refine ⟨setSubN T p (.str (ser v)),
      setSubN (setSubN T p (.str (ser v))) p (canon v), canon v,
      escape_element_ok hn hq hqs, ?_, navigate_setSubN p _ _ hn1 (canon v), ser_canon v⟩
    have h := unescape_element_ok hn1 (ser_str_ne_quotes (ser_ne_empty v)) (parseJson_ser v)
    rwa [canon_canon] at h

theorem hObjLookup_mem : ∀ (fs : List (String × HVal)) (k : String) (v : HVal),
    hObjLookup fs k = some v → (k, v) ∈ fs := by
  intro fs
  induction fs with
  | nil => intro k v h; simp [hObjLookup] at h
  | cons f fs ih =>
    intro k v h
    obtain ⟨k', v'⟩ := f
    by_cases hk : k' = k
    · subst hk
      have h2 : v' = v := by simpa [hObjLookup] using h
      subst h2
      exact List.mem_cons_self _ _
    · simp only [hObjLookup, if_neg hk] at h
      exact List.mem_cons_of_mem _ (ih k v h)

theorem hGetElement_reach : ∀ (p : List String) (h : Heap) (root w : HVal),
    hGetElement h root p = some w → HReach h root w := by
  intro p
  induction p with
  | nil =>
    intro h root w hg
    simp only [hGetElement, Option.some_inj] at hg
    subst hg
    exact HReach.refl root
  | cons t ts ih =>
    intro h root w hg
    unfold hGetElement at hg
    cases hstep : hGetStep h root t with
    | none => rw [hstep] at hg; exact absurd hg (by simp)
    | some sel =>
      rw [hstep] at hg
      have hrest := ih h sel w hg
      cases root with
      | ref a =>
        revert hstep
        unfold hGetStep
        dsimp only []
        split
        · rename_i fs hget
          intro hstep
          exact HReach.intoObj a fs t sel w hget (hObjLookup_mem fs t sel hstep) hrest
        · rename_i l hget
          split
          · intro hstep; exact absurd hstep (by simp)
          · rename_i i hi
            intro hstep
            by_cases hrange : i < 0 ∨ (l.length : Int) ≤ i
            · rw [if_pos hrange] at hstep; exact absurd hstep (by simp)
            · rw [if_neg hrange] at hstep
              exact HReach.intoArr a l sel w hget (List.get?_mem hstep) hrest
        · intro hstep; exact absurd hstep (by simp)
      | null => exact absurd hstep (by rw [hGetStep.eq_def]; simp)
      | bool b => exact absurd hstep (by rw [hGetStep.eq_def]; simp)
      | num n => exact absurd hstep (by rw [hGetStep.eq_def]; simp)
      | str s => exact absurd hstep (by rw [hGetStep.eq_def]; simp)

theorem headD_append_cons : ∀ (path : List String) (x : String) (xs : List String) (d : String),
    (path ++ x :: xs).headD d = path.headD x := by
  intro path x xs d
  cases path <;> rfl

theorem getElementLoop_err_loc : ∀ (ts : List String) (sel : Value) (path : List String)
    (e : GoErr), getElementLoop sel ts path = .error e →
    e.location = "[" ++ quoteToASCII ((path ++ ts).headD "") ++ "]" := by
  intro ts
  induction ts with
  | nil => intro sel path e h; simp [getElementLoop] at h
  | cons t ts ih =>
    intro sel path e h
    cases sel
    case obj fs =>
      simp only [getElementLoop, getElementFromMap] at h
      cases hch : objLookup fs t with
      | none =>
        simp only [hch, Except.bind] at h
        injection h with he
        rw [← he]
        show pathString (path ++ [t]) = _
        unfold pathString
        rw [headD_append_cons path t [] "", headD_append_cons path t ts ""]
      | some c =>
        simp only [hch, Except.bind] at h
        have := ih c (path ++ [t]) e h
        rwa [List.append_assoc, List.singleton_append] at this
    case arr l =>
      simp only [getElementLoop, getElementFromArray] at h
      have hloc : pathString (path ++ [t]) =
          "[" ++ quoteToASCII ((path ++ t :: ts).headD "") ++ "]" := by
        unfold pathString
        rw [headD_append_cons path t [] "", headD_append_cons path t ts ""]
      cases hi : atoi t with
      | none =>
        simp only [hi, Except.bind] at h
        injection h with he
        rw [← he]
        exact hloc
      | some i =>
        simp only [hi] at h
        by_cases hrange : i < 0 ∨ (l.length : Int) ≤ i
        · rw [if_pos hrange] at h
          simp only [Except.bind] at h
          injection h with he
          rw [← he]
          exact hloc
        · rw [if_neg hrange] at h
          simp only [Except.bind] at h
          have := ih _ (path ++ [t]) e h
          rwa [List.append_assoc, List.singleton_append] at this
    all_goals
      (simp only [getElementLoop] at h
       injection h with he
       rw [← he]
       show pathString (path ++ [t]) = _
       unfold pathString
       rw [headD_append_cons path t [] "", headD_append_cons path t ts ""])

theorem getElement_err_first_segment {je : Value} {t0 : String} {ts : List String}
    {e : GoErr} (h : getElement je (t0 :: ts) = .error e) :
    e.location = "[" ++ quoteToASCII t0 ++ "]" := by
  have := getElementLoop_err_loc (t0 :: ts) je [] e h
  simpa using this

theorem updateElement_missing_key_loc {T : Value} {p : List String}
    {fs : List (String × Value)} (hp : navigate T p = some (.obj fs)) {k : String}
    (hk : objLookup fs k = none) (w : Value) (rest : List String) :
    SetElement T w (p ++ k :: rest) =
      .err (.keyNotFound ("JSON" ++ pathLoc T p ++ "[\"" ++ k ++ "\"]"))
        (damageSubN T p (.obj fs)) := by
  show updateElement T .set w (p ++ k :: rest) = _
  rw [updateElement_decompose hp .set w k rest]
  have hstep : recUpdateOn .set (.obj fs) (canon w) ("JSON" ++ pathLoc T p) (k :: rest) =
      .err (.keyNotFound ("JSON" ++ pathLoc T p ++ "[\"" ++ k ++ "\"]")) (.obj fs) :=
    recUpdate_obj_missing_err hk .set (Or.inl rfl) (canon w) _ (rest ++ [""])
  rw [hstep, (liftDamage_navigate p T (.obj fs) hp).2.1]

theorem getD_removeAt_lt : ∀ (l : List Value) (n j : Nat), j < n →
    (l.take n ++ l.drop (n + 1)).getD j .null = l.getD j .null := by
  intro l
  induction l with
  | nil => intro n j _; simp
  | cons x xs ih =>
    intro n j hj
    cases n with
    | zero => omega
    | succ m =>
      cases j with
      | zero => simp
      | succ jj =>
        show (x :: (xs.take m ++ xs.drop (m + 1))).getD (jj + 1) .null = _
        rw [List.getD_cons_succ, List.getD_cons_succ]
        exact ih m jj (by omega)

theorem getD_removeAt_ge : ∀ (l : List Value) (n j : Nat), n ≤ j →
    (l.take n ++ l.drop (n + 1)).getD j .null = l.getD (j + 1) .null := by
  intro l
  induction l with
  | nil => intro n j _; simp
  | cons x xs ih =>
    intro n j hj
    cases n with
    | zero =>
      show (xs.drop 0).getD j .null = _
      rw [List.drop_zero, List.getD_cons_succ]
    | succ m =>
      cases j with
      | zero => omega
      | succ jj =>
        show (x :: (xs.take m ++ xs.drop (m + 1))).getD (jj + 1) .null = _
        rw [List.getD_cons_succ, List.getD_cons_succ]
        exact ih m jj (by omega)

theorem RemoveElement_ok_arr {T : Value} {q : List String} {l : List Value}
    (hq : navigate T q = some (.arr l)) {k : String} {i : Int} (hi : atoi k = some i)
    (hr : ¬(i < 0 ∨ (l.length : Int) ≤ i)) :
    RemoveElement T (q ++ [k]) =
      .ok (setSubN T q (.arr (l.take i.toNat ++ l.drop (i.toNat + 1)))) := by
  show updateElement T .remove .null (q ++ [k]) = _
  rw [updateElement_decompose hq .remove .null k [],
    recUpdateOn_remove_single_arr hi hr (canon .null) _,
    (liftDamage_navigate q T (.arr l) hq).1]

theorem AddElement_absent {T : Value} {p : List String} {fs : List (String × Value)}
    (hp : navigate T p = some (.obj fs)) {k : String} (hk : objLookup fs k = none)
    (w : Value) :
    AddElement T w (p ++ [k]) = .ok (setSubN T p (.obj (objInsert fs k (canon w)))) := by
  show updateElement T .add w (p ++ [k]) = _
  rw [updateElement_decompose hp .add w k [],
    recUpdateOn_add_single_obj_absent hk (canon w) _,
    (liftDamage_navigate p T (.obj fs) hp).1]

theorem AddElement_arr_append {T : Value} {p : List String} {fs : List (String × Value)}
    (hp : navigate T p = some (.obj fs)) {k : String} {a : List Value}
    (hk : objLookup fs k = some (.arr a)) (w : Value) :
    AddElement T w (p ++ [k]) =
      .ok (setSubN T p (.obj (objInsert fs k (.arr (a ++ [canon w]))))) := by
  show updateElement T .add w (p ++ [k]) = _
  rw [updateElement_decompose hp .add w k [],
    recUpdateOn_add_single_obj_arr hk (canon w) _,
    (liftDamage_navigate p T (.obj fs) hp).1]

theorem AddElement_exists_nonarr {T : Value} {p : List String} {fs : List (String × Value)}
    (hp : navigate T p = some (.obj fs)) {k : String} {c : Value}
    (hk : objLookup fs k = some c) (hc : ∀ a, c ≠ .arr a) (w : Value) :
    AddElement T w (p ++ [k]) =
      .err (.alreadyExists ("JSON" ++ pathLoc T p ++ "[\"" ++ k ++ "\"]"))
        (damageSubN T p (.obj fs)) := by
  show updateElement T .add w (p ++ [k]) = _
  rw [updateElement_decompose hp .add w k [],
    recUpdateOn_add_single_obj_nonarr hk hc (canon w) _,
    (liftDamage_navigate p T (.obj fs) hp).2.1]

theorem updateElement_missing_key_err {T : Value} {p : List String}
    {fs : List (String × Value)} (hp : navigate T p = some (.obj fs)) {k : String}
    (hk : objLookup fs k = none) (opt : UpdateOption) (hopt : opt = .set ∨ opt = .remove)
    (w : Value) (rest : List String) :
    updateElement T opt w (p ++ k :: rest) =
      .err (.keyNotFound ("JSON" ++ pathLoc T p ++ "[\"" ++ k ++ "\"]"))
        (damageSubN T p (.obj fs)) := by
  rw [updateElement_decompose hp opt w k rest]
  have hstep : recUpdateOn opt (.obj fs) (canon w) ("JSON" ++ pathLoc T p) (k :: rest) =
      .err (.keyNotFound ("JSON" ++ pathLoc T p ++ "[\"" ++ k ++ "\"]")) (.obj fs) :=
    recUpdate_obj_missing_err hk opt hopt (canon w) _ (rest ++ [""])
  rw [hstep, (liftDamage_navigate p T (.obj fs) hp).2.1]

theorem updateElement_arr_outOfRange_err {T : Value} {p : List String} {l : List Value}
    (hp : navigate T p = some (.arr l)) {k : String} {i : Int} (hi : atoi k = some i)
    (hr : l.length = 0 ∨ (l.length : Int) ≤ i) (opt : UpdateOption) (w : Value)
    (rest : List String) :
    updateElement T opt w (p ++ k :: rest) =
      .err (.invalidIndex ("JSON" ++ pathLoc T p ++ "[" ++ k ++ "]"))
        (damageSubN T p (.arr l)) := by
  rw [updateElement_decompose hp opt w k rest]
  have hstep : recUpdateOn opt (.arr l) (canon w) ("JSON" ++ pathLoc T p) (k :: rest) =
      .err (.invalidIndex ("JSON" ++ pathLoc T p ++ "[" ++ k ++ "]")) (.arr l) :=
    recUpdate_arr_outOfRange hi hr opt (canon w) _ (rest ++ [""])
  rw [hstep, (liftDamage_navigate p T (.arr l) hp).2.1]

theorem updateElement_add_missing_nontail {T : Value} {p : List String}
    {fs : List (String × Value)} (hp : navigate T p = some (.obj fs)) {k : String}
    (hk : objLookup fs k = none) (w : Value) (r0 : String) (rest : List String) :
    updateElement T .add w (p ++ k :: r0 :: rest) =
      .err (.elemNotFoundAt r0 ("JSON" ++ pathLoc T p ++ "[\"" ++ k ++ "\"]"))
        (damageSubN T p (.obj fs)) := by
  rw [updateElement_decompose hp .add w k (r0 :: rest)]
  have hstep : recUpdateOn .add (.obj fs) (canon w) ("JSON" ++ pathLoc T p)
      (k :: r0 :: rest) =
      .err (.elemNotFoundAt r0 ("JSON" ++ pathLoc T p ++ "[\"" ++ k ++ "\"]")) (.obj fs) := by
    show recursiveUpdateElement .add (.obj fs) (canon w) k ("JSON" ++ pathLoc T p)
      ((r0 :: rest) ++ [""]) = _
    rw [List.cons_append]
    exact recUpdate_obj_missing_add_nontail hk (canon w) _ r0 (rest ++ [""]) (by simp)
  rw [hstep, (liftDamage_navigate p T (.obj fs) hp).2.1]

theorem mutator_negative_index_panics {l : List Value} (hl : l ≠ []) {t : String} {i : Int}
    (hi : atoi t = some i) (hneg : i < 0) (opt : UpdateOption) (w : Value) :
    updateElement (.arr l) opt w [t] = .panicked := by
  unfold updateElement
  rw [deepCopy_eq]
  show recursiveUpdateElement opt (.arr l) (canon w) t "JSON" [""] = .panicked
  have hlen : 0 < l.length := List.length_pos.mpr hl
  exact recUpdate_arr_neg hi hneg (by omega) opt (canon w) "JSON" [""]

theorem AddElement_root_arr (l : List Value) (w : Value) :
    AddElement (.arr l) w [] = .ok (.arr (l ++ [canon w])) := by
  show updateElement (.arr l) .add w [] = _
  unfold updateElement
  rw [deepCopy_eq]
  rfl

theorem AddElement_root_nonarr {T : Value} (h : ∀ l, T ≠ .arr l) (w : Value) :
    AddElement T w [] = .err (.invalidOperation (goTypeName T)) T := by
  show updateElement T .add w [] = _
  unfold updateElement
  rw [deepCopy_eq]
  cases T with
  | arr l => exact absurd rfl (h l)
  | _ => rfl

theorem SetElement_root (T w : Value) : SetElement T w [] = .ok (canon w) := by
  show updateElement T .set w [] = _
  unfold updateElement
  rw [deepCopy_eq]
  cases T <;> rfl

theorem RemoveElement_root (T : Value) :
    RemoveElement T [] = .err (.invalidOperation (goTypeName T)) T := by
  show updateElement T .remove .null [] = _
  unfold updateElement
  rw [deepCopy_eq]
  cases T <;> rfl

/-! ## The claims -/

/-- Claim C1, amended: when a mutation call returns an error, the observable
tree is the original unless the failure happened strictly below an array
traversal step; in that case it is the original with `null` written over the
entry at a non-empty prefix of the path, a prefix whose walk enters an array.
When the path traverses only objects a failed call leaves the tree unchanged.
The original claim (a failed call never produces a partially mutated tree) is
refuted by `claim1_counterexample`. -/
theorem claim1_amended {T w : Value} {opt : UpdateOption} {targets : List String}
    {e : GoErr} {D : Value} (h : updateElement T opt w targets = .err e D) :
    (objOnlyPath T targets = true → D = T) ∧
    (D = T ∨ ∃ q rr, q ++ rr = targets ∧ q ≠ [] ∧ objOnlyPath T q = false ∧
      D = setSubN T q .null) :=
  ⟨fun hobj => updateElement_err_objOnly h hobj, updateElement_err_shape h⟩

/-- Claim C1 witness: the amended statement at a concrete failed call (a Set
of a missing key on an object root; the tree is unchanged there). -/
theorem claim1_witness :
    (objOnlyPath (.obj [("a", .num 1)]) ["zz"] = true →
      Value.obj [("a", .num 1)] = .obj [("a", .num 1)]) ∧
    (Value.obj [("a", .num 1)] = .obj [("a", .num 1)] ∨
      ∃ q rr, q ++ rr = ["zz"] ∧ q ≠ [] ∧
        objOnlyPath (Value.obj [("a", .num 1)]) q = false ∧
        Value.obj [("a", .num 1)] = setSubN (.obj [("a", .num 1)]) q .null) :=
  @claim1_amended (.obj [("a", .num 1)]) (.num 2) .set ["zz"]
    (.keyNotFound "JSON[\"zz\"]") (.obj [("a", .num 1)]) rfl

/-- Claim C1 counterexample: a Remove that fails below an array step returns
an error, yet the array element traversed on the way is overwritten with
`null` — the tree after the failed call differs from the original. -/
theorem claim1_counterexample :
    RemoveElement (.arr [.arr [.str "x"]]) ["0", "5"] =
      .err (.invalidIndex "JSON[0][5]") (.arr [.null]) ∧
    Value.arr [.null] ≠ .arr [.arr [.str "x"]] :=
  ⟨rfl, by simp⟩

/-- Claim C2: with an empty path, Add appends to an array root and fails with
InvalidOperation on any other root; Set replaces the whole root with the
(deep-copied, hence canonical) new value; Remove always fails with
InvalidOperation. -/
theorem claim2 (T w : Value) (l : List Value) :
    AddElement (.arr l) w [] = .ok (.arr (l ++ [canon w])) ∧
    ((∀ x, T ≠ .arr x) → AddElement T w [] = .err (.invalidOperation (goTypeName T)) T) ∧
    SetElement T w [] = .ok (canon w) ∧
    RemoveElement T [] = .err (.invalidOperation (goTypeName T)) T :=
  ⟨AddElement_root_arr l w, fun h => AddElement_root_nonarr h w, SetElement_root T w,
    RemoveElement_root T⟩

/-- Claim C3: when the path resolves to an object at the tail key, Add
inserts an absent key, appends to the existing array when the key holds an
array, and fails with AlreadyExists when the key holds a non-array. -/
theorem claim3 {T : Value} {p : List String} {fs : List (String × Value)}
    (hp : navigate T p = some (.obj fs)) (k : String) (w : Value) :
    (objLookup fs k = none →
      AddElement T w (p ++ [k]) = .ok (setSubN T p (.obj (objInsert fs k (canon w))))) ∧
    (∀ a, objLookup fs k = some (.arr a) →
      AddElement T w (p ++ [k]) =
        .ok (setSubN T p (.obj (objInsert fs k (.arr (a ++ [canon w])))))) ∧
    (∀ c, objLookup fs k = some c → (∀ a, c ≠ .arr a) →
      AddElement T w (p ++ [k]) =
        .err (.alreadyExists ("JSON" ++ pathLoc T p ++ "[\"" ++ k ++ "\"]"))
          (damageSubN T p (.obj fs))) :=
  ⟨fun hk => AddElement_absent hp hk w,
   fun a hk => AddElement_arr_append hp hk w,
   fun c hk hc => AddElement_exists_nonarr hp hk hc w⟩

/-- Claim C3 witness: the two concrete examples of the claim, obtained from
the theorem: Add(3,"k") on an object holding k:[1,2] yields k:[1,2,3]; on an
object holding k:"x" it fails with AlreadyExists. -/
theorem claim3_witness :
    AddElement (.obj [("k", .arr [.num 1, .num 2])]) (.num 3) ["k"] =
      .ok (.obj [("k", .arr [.num 1, .num 2, .num 3])]) ∧
    AddElement (.obj [("k", .str "x")]) (.num 3) ["k"] =
      .err (.alreadyExists "JSON[\"k\"]") (.obj [("k", .str "x")]) :=
  ⟨(@claim3 (.obj [("k", .arr [.num 1, .num 2])]) [] [("k", .arr [.num 1, .num 2])]
      rfl "k" (.num 3)).2.1 [.num 1, .num 2] rfl,
   (@claim3 (.obj [("k", .str "x")]) [] [("k", .str "x")] rfl "k"
      (.num 3)).2.2 (.str "x") rfl (fun _ hx => Value.noConfusion hx)⟩

/-- Claim C4 (the code diverges from it): for a non-empty array and a segment
denoting any negative integer, every mutation panics — Go indexes the slice
with the negative index because the guard checks only `len == 0 || idx >=
len` — instead of returning the claimed InvalidIndex error; the navigator, in
contrast, does return a value-level error for the same input. -/
theorem claim4_bug {l : List Value} (hl : l ≠ []) {t : String} {i : Int}
    (hi : atoi t = some i) (hneg : i < 0) :
    (∀ (opt : UpdateOption) (w : Value), updateElement (.arr l) opt w [t] = .panicked) ∧
    getElement (.arr l) [t] = .error (.elemNotValidIndex ("[" ++ quoteToASCII t ++ "]")) := by
  constructor
  · intro opt w
    exact mutator_negative_index_panics hl hi hneg opt w
  · show getElementLoop (.arr l) [t] [] = _
    simp only [getElementLoop, getElementFromArray, hi]
    rw [if_pos (Or.inl hneg)]
    rfl

/-- Claim C4 witness: the divergence at the concrete failing input
`RemoveElement("-1")` on the tree `["x"]`: every mutation panics while
`GetElement` returns the index error. -/
theorem claim4_witness :
    (∀ (opt : UpdateOption) (w : Value),
      updateElement (.arr [.str "x"]) opt w ["-1"] = .panicked) ∧
    getElement (.arr [.str "x"]) ["-1"] = .error (.elemNotValidIndex "[\"-1\"]") :=
  claim4_bug (by simp) rfl (by decide)

/-- Claim C5, amended: escape at a resolvable path followed by unescape at
the same path succeeds and restores a value with the same canonical JSON
serialization, provided every character of the serialization of the value
there is quote-safe (at or above the space, not DEL, basic plane): on those
characters `strconv.Quote` output is valid JSON.  When the value is the
empty string both calls are unconditional no-op successes.  The original
unconditional claim is refuted by `claim5_counterexample`: a serialization
holding DEL is quoted as the `\\x7f` escape, which `json.Unmarshal`
rejects, so EscapeElement errors. -/
theorem claim5_amended {T v : Value} {p : List String} (hn : navigate T p = some v) :
    (quoteSafeB (ser v).data = true →
      ∃ T1 T2 v2, EscapeElement T p = .ok T1 ∧ UnescapeElement T1 p = .ok T2 ∧
        navigate T2 p = some v2 ∧ ser v2 = ser v) ∧
    (v = .str "" → EscapeElement T p = .ok T ∧ UnescapeElement T p = .ok T) :=
  ⟨fun hqs => escape_unescape_roundTrip hn hqs,
   fun hv => ⟨escape_element_noop hn (by rw [hv]; rfl),
     unescape_element_noop hn (by rw [hv]; rfl)⟩⟩

/-- Claim C5 witness: the round trip at the concrete tree of the
specification example, at path ["a"], with the quote-safety hypothesis
evaluated on the concrete serialization. -/
theorem claim5_witness :
    ∃ T1 T2 v2,
      EscapeElement (.obj [("a", .obj [("b", .str "value")])]) ["a"] = .ok T1 ∧
      UnescapeElement T1 ["a"] = .ok T2 ∧
      navigate T2 ["a"] = some v2 ∧ ser v2 = ser (.obj [("b", .str "value")]) :=
  (@claim5_amended (.obj [("a", .obj [("b", .str "value")])])
    (.obj [("b", .str "value")]) ["a"] rfl).1 (by decide)

/-- Claim C5 counterexample: on the tree with "a" holding the one-character
DEL string — a value json.Marshal serializes with the raw `0x7f` character —
EscapeElement fails: `strconv.Quote` renders DEL as the `\\x7f` escape, not
valid JSON, and `json.Unmarshal` of the quoted text errors, although the
path resolves; the original claim asserts the round trip succeeds here. -/
theorem claim5_counterexample :
    navigate (.obj [("a", .str "\x7f")]) ["a"] = some (.str "\x7f") ∧
    EscapeElement (.obj [("a", .str "\x7f")]) ["a"] =
      .err (.unmarshalErr (goQuote (ser (.str "\x7f")))) (.obj [("a", .str "\x7f")]) ∧
    goQuote (ser (.str "\x7f")) = "\"\\\"\\x7f\\\"\"" :=
  ⟨rfl, rfl, rfl⟩

/-- Claim C6, amended: the handle `GetElement` returns wraps the selected
node of the tree itself — a value reachable from the root in the heap — not
an isolated copy; `claim6_counterexample` exhibits a mutation through the
returned handle that changes the original tree. -/
theorem claim6_amended {p : List String} {h : Heap} {root w : HVal}
    (hg : hGetElement h root p = some w) : HReach h root w :=
  hGetElement_reach p h root w hg

/-- Claim C6 witness: on a concrete two-cell heap, the handle returned for
path ["a"] is the reference stored in the tree, hence reachable from the
root. -/
theorem claim6_witness :
    HReach [HCell.obj [("a", HVal.ref 1)], HCell.obj [("b", HVal.num 1)]]
      (HVal.ref 0) (HVal.ref 1) :=
  @claim6_amended ["a"]
    [HCell.obj [("a", HVal.ref 1)], HCell.obj [("b", HVal.num 1)]] (HVal.ref 0)
    (HVal.ref 1) rfl

/-- Claim C6 counterexample: GetElement returns an alias, not a copy — a
SetElement performed through the returned handle changes what the original
root reads back (and hence its serialized text). -/
theorem claim6_counterexample :
    hGetElement [HCell.obj [("a", HVal.ref 1)], HCell.obj [("b", HVal.num 1)]]
      (HVal.ref 0) ["a"] = some (HVal.ref 1) ∧
    hSetElement [HCell.obj [("a", HVal.ref 1)], HCell.obj [("b", HVal.num 1)]]
      (HVal.ref 1) (.num 2) ["b"] =
      ([HCell.obj [("a", HVal.ref 1)], HCell.obj [("b", HVal.num 2)]], some (HVal.ref 1)) ∧
    hRead 5 [HCell.obj [("a", HVal.ref 1)], HCell.obj [("b", HVal.num 1)]] (HVal.ref 0) =
      .obj [("a", .obj [("b", .num 1)])] ∧
    hRead 5 [HCell.obj [("a", HVal.ref 1)], HCell.obj [("b", HVal.num 2)]] (HVal.ref 0) =
      .obj [("a", .obj [("b", .num 2)])] ∧
    ser (.obj [("a", .obj [("b", .num 2)])]) ≠ ser (.obj [("a", .obj [("b", .num 1)])]) :=
  ⟨rfl, rfl, by rfl, by rfl, by decide⟩

/-- Claim C7, amended: a missing key at an object step makes Set and Remove
fail with KeyNotFound (not a generic NotFound) and a missing index at an
array step makes every operation fail with InvalidIndex; Add never
auto-creates a missing intermediate container and fails with the
element-not-found-at error naming the next segment; the failed call leaves
the tree unchanged when the path traverses only objects (below an array step
the C1 damage applies). -/
theorem claim7_amended :
    (∀ (T : Value) (p : List String) (fs : List (String × Value)) (k : String)
      (opt : UpdateOption) (w : Value) (rest : List String),
      navigate T p = some (.obj fs) → objLookup fs k = none →
      opt = .set ∨ opt = .remove →
      updateElement T opt w (p ++ k :: rest) =
        .err (.keyNotFound ("JSON" ++ pathLoc T p ++ "[\"" ++ k ++ "\"]"))
          (damageSubN T p (.obj fs))) ∧
    (∀ (T : Value) (p : List String) (l : List Value) (k : String) (i : Int)
      (opt : UpdateOption) (w : Value) (rest : List String),
      navigate T p = some (.arr l) → atoi k = some i →
      l.length = 0 ∨ (l.length : Int) ≤ i →
      updateElement T opt w (p ++ k :: rest) =
        .err (.invalidIndex ("JSON" ++ pathLoc T p ++ "[" ++ k ++ "]"))
          (damageSubN T p (.arr l))) ∧
    (∀ (T : Value) (p : List String) (fs : List (String × Value)) (k : String)
      (w : Value) (r0 : String) (rest : List String),
      navigate T p = some (.obj fs) → objLookup fs k = none →
      updateElement T .add w (p ++ k :: r0 :: rest) =
        .err (.elemNotFoundAt r0 ("JSON" ++ pathLoc T p ++ "[\"" ++ k ++ "\"]"))
          (damageSubN T p (.obj fs))) ∧
    (∀ (T w : Value) (opt : UpdateOption) (targets : List String) (e : GoErr) (D : Value),
      updateElement T opt w targets = .err e D → objOnlyPath T targets = true → D = T) :=
  ⟨fun _ _ _ k opt w rest hp hk hopt => updateElement_missing_key_err hp hk opt hopt w rest,
   fun _ _ _ k i opt w rest hp hi hr => updateElement_arr_outOfRange_err hp hi hr opt w rest,
   fun _ _ _ k w r0 rest hp hk => updateElement_add_missing_nontail hp hk w r0 rest,
   fun _ _ _ _ _ _ h hobj => updateElement_err_objOnly h hobj⟩

/-- Claim C7 counterexample: a missing index at a non-tail array step fails
with InvalidIndex, whose message does not say not found; and an Add failing
past an array step leaves the tree damaged, not unchanged. -/
theorem claim7_counterexample :
    SetElement (.arr [.num 1]) (.num 2) ["5", "x"] =
      .err (.invalidIndex "JSON[5]") (.arr [.num 1]) ∧
    hasSub ("not found".data) ((GoErr.invalidIndex "JSON[5]").message.data) = false ∧
    AddElement (.arr [.obj [("m", .num 1)]]) (.str "v") ["0", "x", "y"] =
      .err (.elemNotFoundAt "y" "JSON[0][\"x\"]") (.arr [.null]) ∧
    Value.arr [.null] ≠ .arr [.obj [("m", .num 1)]] :=
  ⟨rfl, by decide, rfl, by simp⟩

/-- Claim C8, amended: a navigator error carries only the first segment of
the requested path in its location (JSONPath.String renders path[0]), not the
full path nor the consumed prefix; a mutator error carries JSON plus the
rendered consumed prefix and the failing segment, independent of the segments
that follow the failure. -/
theorem claim8_amended :
    (∀ (je : Value) (t0 : String) (ts : List String) (e : GoErr),
      getElement je (t0 :: ts) = .error e →
      e.location = "[" ++ quoteToASCII t0 ++ "]") ∧
    (∀ (T w : Value) (p : List String) (fs : List (String × Value)) (k : String)
      (rest : List String),
      navigate T p = some (.obj fs) → objLookup fs k = none →
      SetElement T w (p ++ k :: rest) =
        .err (.keyNotFound ("JSON" ++ pathLoc T p ++ "[\"" ++ k ++ "\"]"))
          (damageSubN T p (.obj fs))) :=
  ⟨fun _ _ _ _ h => getElement_err_first_segment h,
   fun _ w _ _ _ rest hp hk => updateElement_missing_key_loc hp hk w rest⟩

/-- Claim C8 counterexample: a navigation that fails at the third segment
reports a location naming only the first segment — neither the full requested
path nor the consumed prefix appears in the error. -/
theorem claim8_counterexample :
    getElement (.obj [("a", .obj [("b", .obj [])])]) ["a", "b", "zz"] =
      .error (.elemNotFound "[\"a\"]") ∧
    hasSub ("zz".data) ("[\"a\"]".data) = false ∧
    hasSub ("b".data) ("[\"a\"]".data) = false :=
  ⟨rfl, rfl, rfl⟩

/-- Claim C9: when the path resolves to a valid array index, Remove deletes
the element there: the result is the prefix before the index joined with the
suffix after it, the length drops by exactly one, elements before the index
keep their position and every later element shifts left by one. -/
theorem claim9 {T : Value} {q : List String} {l : List Value}
    (hq : navigate T q = some (.arr l)) {k : String} {i : Int} (hi : atoi k = some i)
    (hr : ¬(i < 0 ∨ (l.length : Int) ≤ i)) :
    RemoveElement T (q ++ [k]) =
      .ok (setSubN T q (.arr (l.take i.toNat ++ l.drop (i.toNat + 1)))) ∧
    (l.take i.toNat ++ l.drop (i.toNat + 1)).length = l.length - 1 ∧
    (∀ j, j < i.toNat →
      (l.take i.toNat ++ l.drop (i.toNat + 1)).getD j .null = l.getD j .null) ∧
    (∀ j, i.toNat ≤ j →
      (l.take i.toNat ++ l.drop (i.toNat + 1)).getD j .null = l.getD (j + 1) .null) := by
  have hlen : i.toNat < l.length := by omega
  refine ⟨RemoveElement_ok_arr hq hi hr, ?_,
    fun j hj => getD_removeAt_lt l i.toNat j hj,
    fun j hj => getD_removeAt_ge l i.toNat j hj⟩
  rw [List.length_append, List.length_take, List.length_drop,
    Nat.min_eq_left (Nat.le_of_lt hlen)]
  omega

/-- Claim C9 witness: the concrete example of the claim: removing index 1
from d:["f",123,456] yields d:["f",456], and the length drops from 3 to 2. -/
theorem claim9_witness :
    RemoveElement (.obj [("d", .arr [.str "f", .num 123, .num 456])]) ["d", "1"] =
      .ok (.obj [("d", .arr [.str "f", .num 456])]) ∧
    ([Value.str "f", .num 123, .num 456].take 1 ++
      [Value.str "f", .num 123, .num 456].drop 2).length = 2 :=
  ⟨(@claim9 (.obj [("d", .arr [.str "f", .num 123, .num 456])]) ["d"]
      [.str "f", .num 123, .num 456] rfl "1" 1 rfl (by decide)).1,
   (@claim9 (.obj [("d", .arr [.str "f", .num 123, .num 456])]) ["d"]
      [.str "f", .num 123, .num 456] rfl "1" 1 rfl (by decide)).2.1⟩

/-- Claim C10: MarshalWrite ignores its targets entirely — for every tree,
path, pretty flag and target list it writes exactly what Marshal of the whole
tree with no targets produces, never the serialization of the addressed
sub-element. -/
theorem claim10 (je : Value) (path : String) (isPretty : Bool) (targets : List String) :
    MarshalWrite je path isPretty targets = Marshal je isPretty [] ∧
    MarshalWrite je path isPretty targets =
      .ok (if isPretty then serIndent je else ser je) := by
  refine ⟨rfl, ?_⟩
  show Marshal je isPretty [] = _
  unfold Marshal
  rfl

end BJ
